import Mathlib

/-!
Verification of the NetworkSync synchronization engine.

This file gives a shallow embedding, in Lean, of the core of the
`networksync` repository: the manifest hashing of `core/src/hasher.ts`,
the catalog persistence of `core/src/db.ts`, the content-addressable
store of `core/src/storage.ts`, and the `push` / `pull` /
`restoreSnapshot` / `runGarbageCollection` operations of
`core/src/sync.ts`.  Effectful code is modelled by explicit state
passing over association-list file maps and by operation traces;
external libraries (zlib, the `ignore` matcher) are modelled as
function parameters; `String.prototype.localeCompare` is modelled by an
explicit collation documented at its definition.
-/

namespace NetworkSync

/-! ## SHA-256 over byte lists

`hashString` in `core/src/hasher.ts` is `createHash('sha256')` over the
UTF-8 encoding of a string, emitted as lowercase hex.  We implement
SHA-256 executably over `List Nat` (each element a byte), with all
word arithmetic taken modulo `2 ^ 32`.
-/

/-- Right rotation of a 32-bit word (input assumed `< 2 ^ 32`). -/
def rotr32 (n x : Nat) : Nat :=
  ((x >>> n) ||| (x <<< (32 - n))) % 4294967296

/-- 32-bit addition. -/
def add32 (a b : Nat) : Nat := (a + b) % 4294967296

/-- SHA-256 `Ch` function. -/
def shaCh (e f g : Nat) : Nat := (e &&& f) ^^^ ((e ^^^ 4294967295) &&& g)

/-- SHA-256 `Maj` function. -/
def shaMaj (a b c : Nat) : Nat := (a &&& b) ^^^ (a &&& c) ^^^ (b &&& c)

/-- SHA-256 big sigma 0. -/
def bigSigma0 (x : Nat) : Nat := rotr32 2 x ^^^ rotr32 13 x ^^^ rotr32 22 x

/-- SHA-256 big sigma 1. -/
def bigSigma1 (x : Nat) : Nat := rotr32 6 x ^^^ rotr32 11 x ^^^ rotr32 25 x

/-- SHA-256 small sigma 0. -/
def smallSigma0 (x : Nat) : Nat := rotr32 7 x ^^^ rotr32 18 x ^^^ (x >>> 3)

/-- SHA-256 small sigma 1. -/
def smallSigma1 (x : Nat) : Nat := rotr32 17 x ^^^ rotr32 19 x ^^^ (x >>> 10)

/-- The 64 SHA-256 round constants (FIPS 180-4, written in decimal). -/
def shaK : List Nat :=
  [1116352408, 1899447441, 3049323471, 3921009573, 961987163,
   1508970993, 2453635748, 2870763221, 3624381080, 310598401,
   607225278, 1426881987, 1925078388, 2162078206, 2614888103,
   3248222580, 3835390401, 4022224774, 264347078, 604807628,
   770255983, 1249150122, 1555081692, 1996064986, 2554220882,
   2821834349, 2952996808, 3210313671, 3336571891, 3584528711,
   113926993, 338241895, 666307205, 773529912, 1294757372,
   1396182291, 1695183700, 1986661051, 2177026350, 2456956037,
   2730485921, 2820302411, 3259730800, 3345764771, 3516065817,
   3600352804, 4094571909, 275423344, 430227734, 506948616,
   659060556, 883997877, 958139571, 1322822218, 1537002063,
   1747873779, 1955562222, 2024104815, 2227730452, 2361852424,
   2428436474, 2756734187, 3204031479, 3329325298]

/-- The SHA-256 initial hash value (FIPS 180-4, written in decimal). -/
def shaH0 : List Nat :=
  [1779033703, 3144134277, 1013904242, 2773480762,
   1359893119, 2600822924, 528734635, 1541459225]

/-- Group a byte list into big-endian 32-bit words. -/
def bytesToWords : List Nat → List Nat
  | b0 :: b1 :: b2 :: b3 :: t =>
      (b0 * 16777216 + b1 * 65536 + b2 * 256 + b3) :: bytesToWords t
  | _ => []

/-- Next word of the message schedule, given the previous words in
reverse order (most recent first). -/
def nextScheduleWord (rev : List Nat) : Nat :=
  (smallSigma1 (rev.getD 1 0) + rev.getD 6 0 +
     smallSigma0 (rev.getD 14 0) + rev.getD 15 0) % 4294967296

/-- Extend a reversed word list by `n` schedule words. -/
def extendSchedule : Nat → List Nat → List Nat
  | 0, rev => rev.reverse
  | n + 1, rev => extendSchedule n (nextScheduleWord rev :: rev)

/-- The 64-word message schedule of one block (given its 16 words). -/
def messageSchedule (ws : List Nat) : List Nat :=
  extendSchedule 48 ws.reverse

/-- One SHA-256 compression round.  The state is the eight working
variables `[a, b, c, d, e, f, g, h]`. -/
def compressRound (st : List Nat) (kw : Nat × Nat) : List Nat :=
  match st with
  | [a, b, c, d, e, f, g, h] =>
      let t1 := (h + bigSigma1 e + shaCh e f g + kw.1 + kw.2) % 4294967296
      let t2 := (bigSigma0 a + shaMaj a b c) % 4294967296
      [add32 t1 t2, a, b, c, add32 d t1, e, f, g]
  | other => other

/-- Process one 64-byte block, updating the eight-word hash state. -/
def processBlock (h : List Nat) (block : List Nat) : List Nat :=
  let ws := messageSchedule (bytesToWords block)
  let st := (shaK.zip ws).foldl compressRound h
  (h.zip st).map (fun p => add32 p.1 p.2)

/-- SHA-256 padding: append `0x80`, zeros, and the 64-bit big-endian
bit length, reaching a multiple of 64 bytes. -/
def padMessage (msg : List Nat) : List Nat :=
  let bitLen := msg.length * 8
  let zeros := (119 - msg.length % 64) % 64
  msg ++ [128] ++ List.replicate zeros 0 ++
    (List.range 8).map (fun i => (bitLen >>> ((7 - i) * 8)) % 256)

/-- Split a byte list into 64-byte blocks (fuel-driven so that the
definition reduces by `rfl` / `decide`). -/
def toBlocksFuel : Nat → List Nat → List (List Nat)
  | 0, _ => []
  | _ + 1, [] => []
  | fuel + 1, l => l.take 64 :: toBlocksFuel fuel (l.drop 64)

/-- Split a byte list into 64-byte blocks. -/
def toBlocks (l : List Nat) : List (List Nat) :=
  toBlocksFuel (l.length + 1) l

/-- SHA-256 of a byte list, as the list of 32 digest bytes. -/
def sha256 (msg : List Nat) : List Nat :=
  let final := (toBlocks (padMessage msg)).foldl processBlock shaH0
  final.flatMap (fun w => [w >>> 24 % 256, w >>> 16 % 256, w >>> 8 % 256, w % 256])

/-- A lowercase hex digit. -/
def hexDigit (n : Nat) : Char :=
  if n < 10 then Char.ofNat (48 + n) else Char.ofNat (87 + n)

/-- Lowercase hex rendering of a byte list. -/
def bytesToHex (bs : List Nat) : String :=
  String.mk (bs.flatMap (fun b => [hexDigit (b / 16), hexDigit (b % 16)]))

/-- UTF-8 encoding of one code point. -/
def encodeCharUtf8 (n : Nat) : List Nat :=
  if n < 128 then [n]
  else if n < 2048 then [192 ||| (n >>> 6), 128 ||| (n &&& 63)]
  else if n < 65536 then
    [224 ||| (n >>> 12), 128 ||| ((n >>> 6) &&& 63), 128 ||| (n &&& 63)]
  else
    [240 ||| (n >>> 18), 128 ||| ((n >>> 12) &&& 63),
     128 ||| ((n >>> 6) &&& 63), 128 ||| (n &&& 63)]

/-- UTF-8 encoding of a string as a byte list. -/
def utf8Bytes (s : String) : List Nat :=
  s.data.flatMap (fun c => encodeCharUtf8 c.toNat)

/-- `hashString` of `core/src/hasher.ts`: SHA-256 of the UTF-8 bytes of
a string, emitted as 64 lowercase hex characters. -/
def hashString (s : String) : String :=
  bytesToHex (sha256 (utf8Bytes s))

example : hashString "abc" =
    "ba7816bf8f01cfea414140de5dae2223b00361a396177a9cb410ff61f20015ad" := by
  decide

example : hashString "" =
    "e3b0c44298fc1c149afbf4c8996fb92427ae41e4649b934ca495991b7852b855" := by
  decide

/-! ## The `localeCompare` model and `computeManifestHash`

`computeManifestHash` in `core/src/hasher.ts` sorts the entries with
`(a, b) => a.path.localeCompare(b.path)` and hashes the records
`` `${e.path}:${e.hash}` `` joined by `'\n'`.
-/

/-- Modelled: the collation key of one character under Node's default
`String.prototype.localeCompare`, restricted to the ASCII strings this
development uses.  ASCII letters compare case-insensitively first, a
lowercase letter precedes its uppercase form on ties, and letters sort
after all other characters; every other character sorts by its code
point.  Distinct strings never receive equal keys. -/
def charKey (c : Char) : Nat :=
  if 65 ≤ c.toNat ∧ c.toNat ≤ 90 then 4294967296 + 2 * (c.toNat + 32) + 1
  else if 97 ≤ c.toNat ∧ c.toNat ≤ 122 then 4294967296 + 2 * c.toNat
  else c.toNat

/-- The collation key of a string: its characters' keys in order. -/
def pathKey (s : String) : List Nat := s.data.map charKey

/-- Three-way comparison of naturals. -/
def cmpNat (a b : Nat) : Ordering :=
  if a < b then .lt else if a = b then .eq else .gt

/-- Lexicographic three-way comparison of key lists. -/
def cmpKeyList : List Nat → List Nat → Ordering
  | [], [] => .eq
  | [], _ :: _ => .lt
  | _ :: _, [] => .gt
  | a :: as, b :: bs =>
      match cmpNat a b with
      | .eq => cmpKeyList as bs
      | o => o

/-- Modelled: `a.localeCompare(b)` under the collation of `charKey`,
returning a negative, zero, or positive number as `sort` expects. -/
def jsLocaleCompare (a b : String) : Int :=
  match cmpKeyList (pathKey a) (pathKey b) with
  | .lt => -1
  | .eq => 0
  | .gt => 1

/-- The `{path, hash}` records that `computeManifestHash` receives. -/
structure MEntry where
  path : String
  hash : String
deriving DecidableEq

/-- The comparator relation under which a JavaScript stable `sort` with
comparator `cmp` may keep `a` before `b`: `cmp(a, b) <= 0`. -/
def entryLe (a b : MEntry) : Prop := jsLocaleCompare a.path b.path ≤ 0

instance : DecidableRel entryLe := fun a b =>
  inferInstanceAs (Decidable (jsLocaleCompare a.path b.path ≤ 0))

/-- `computeManifestHash` of `core/src/hasher.ts`: sort a copy of the
entries by `localeCompare` on paths (V8's `sort` is stable; a stable
sort with comparator `cmp` is `insertionSort` under `cmp(a, b) <= 0`),
join the `path:hash` records with `'\n'`, and hash the result. -/
def computeManifestHash (entries : List MEntry) : String :=
  let sorted := List.insertionSort entryLe entries
  let combined := String.intercalate "\n" (sorted.map (fun e => e.path ++ ":" ++ e.hash))
  hashString combined

/-- The manifest digest exactly as claim C3 words it: the SHA-256 hash
of the UTF-8 concatenation of the records `path\tcontent-hash\n`, one
per entry, entries ordered by bytewise comparison of their paths. -/
def bytewiseManifestDigest (entries : List MEntry) : String :=
  let le : MEntry → MEntry → Prop := fun a b =>
    cmpKeyList (utf8Bytes a.path) (utf8Bytes b.path) ≠ .gt
  let sorted := @List.insertionSort _ le
    (fun x y => inferInstanceAs (Decidable (cmpKeyList (utf8Bytes x.path) (utf8Bytes y.path) ≠ .gt))) entries
  let combined := String.join (sorted.map (fun e => e.path ++ "\t" ++ e.hash ++ "\n"))
  bytesToHex (sha256 (utf8Bytes combined))

/-- The manifest digest as amended: SHA-256 (64 lowercase hex chars) of
the UTF-8 bytes of the `path:content-hash` records joined by single
`'\n'` separators (no trailing newline), entries stably ordered by
`localeCompare` of their paths. -/
def amendedManifestDigest (entries : List MEntry) : String :=
  let sorted := List.insertionSort entryLe entries
  let records := sorted.map (fun e => e.path ++ ":" ++ e.hash)
  bytesToHex (sha256 (utf8Bytes (String.intercalate "\n" records)))

/-! ### Order-theoretic facts about the comparator -/

theorem cmpNat_eq_iff {a b : Nat} : cmpNat a b = .eq ↔ a = b := by
  unfold cmpNat
  split <;> rename_i h
  · simp only [reduceCtorEq, false_iff]; omega
  · split <;> rename_i h2
    · simpa using h2
    · simp only [reduceCtorEq, false_iff]; omega

theorem cmpNat_lt_iff {a b : Nat} : cmpNat a b = .lt ↔ a < b := by
  unfold cmpNat
  split <;> rename_i h
  · simpa using h
  · split <;> simp only [reduceCtorEq, false_iff] <;> omega

theorem cmpNat_gt_iff {a b : Nat} : cmpNat a b = .gt ↔ b < a := by
  unfold cmpNat
  split <;> rename_i h
  · simp only [reduceCtorEq, false_iff]; omega
  · split <;> rename_i h2
    · simp only [reduceCtorEq, false_iff]; omega
    · simp only [true_iff]; omega

theorem cmpKeyList_eq_iff : ∀ {x y : List Nat}, cmpKeyList x y = .eq ↔ x = y := by
  intro x
  induction x with
  | nil => intro y; cases y <;> simp [cmpKeyList]
  | cons a as ih =>
    intro y
    cases y with
    | nil => simp [cmpKeyList]
    | cons b bs =>
      simp only [cmpKeyList]
      cases hab : cmpNat a b <;>
        simp only [List.cons.injEq]
      · simp only [reduceCtorEq, false_iff, not_and]
        intro hab2
        rw [cmpNat_lt_iff] at hab; omega
      · rw [cmpNat_eq_iff] at hab
        simp [hab, ih]
      · simp only [reduceCtorEq, false_iff, not_and]
        intro hab2
        rw [cmpNat_gt_iff] at hab; omega

theorem cmpKeyList_gt_iff_lt : ∀ {x y : List Nat},
    cmpKeyList x y = .gt ↔ cmpKeyList y x = .lt := by
  intro x
  induction x with
  | nil => intro y; cases y <;> simp [cmpKeyList]
  | cons a as ih =>
    intro y
    cases y with
    | nil => simp [cmpKeyList]
    | cons b bs =>
      simp only [cmpKeyList]
      cases hab : cmpNat a b
      · have h1 : a < b := cmpNat_lt_iff.mp hab
        have hba : cmpNat b a = .gt := cmpNat_gt_iff.mpr h1
        simp [hba]
      · have h1 : a = b := cmpNat_eq_iff.mp hab
        have hba : cmpNat b a = .eq := cmpNat_eq_iff.mpr h1.symm
        simp [hba, ih]
      · have h1 : b < a := cmpNat_gt_iff.mp hab
        have hba : cmpNat b a = .lt := cmpNat_lt_iff.mpr h1
        simp [hba]

theorem cmpKeyList_trans_ne_gt : ∀ {x y z : List Nat},
    cmpKeyList x y ≠ .gt → cmpKeyList y z ≠ .gt → cmpKeyList x z ≠ .gt := by
  intro x
  induction x with
  | nil =>
    intro y z _ _
    cases z <;> simp [cmpKeyList]
  | cons a as ih =>
    intro y z h1 h2
    cases y with
    | nil => simp [cmpKeyList] at h1
    | cons b bs =>
      cases z with
      | nil => simp [cmpKeyList] at h2
      | cons c cs =>
        simp only [cmpKeyList] at h1 h2 ⊢
        cases hab : cmpNat a b <;> rw [hab] at h1
        · have h1' : a < b := cmpNat_lt_iff.mp hab
          cases hbc : cmpNat b c <;> rw [hbc] at h2
          · have h2' : b < c := cmpNat_lt_iff.mp hbc
            rw [cmpNat_lt_iff.mpr (by omega : a < c)]; simp
          · have h2' : b = c := cmpNat_eq_iff.mp hbc
            rw [cmpNat_lt_iff.mpr (by omega : a < c)]; simp
          · simp at h2
        · have h1' : a = b := cmpNat_eq_iff.mp hab
          cases hbc : cmpNat b c <;> rw [hbc] at h2
          · have h2' : b < c := cmpNat_lt_iff.mp hbc
            rw [cmpNat_lt_iff.mpr (by omega : a < c)]; simp
          · have h2' : b = c := cmpNat_eq_iff.mp hbc
            rw [cmpNat_eq_iff.mpr (by omega : a = c)]
            exact ih h1 h2
          · simp at h2
        · simp at h1

theorem entryLe_iff {a b : MEntry} :
    entryLe a b ↔ cmpKeyList (pathKey a.path) (pathKey b.path) ≠ .gt := by
  unfold entryLe jsLocaleCompare
  cases h : cmpKeyList (pathKey a.path) (pathKey b.path) <;> simp

instance : IsTotal MEntry entryLe := by
  constructor
  intro a b
  rw [entryLe_iff, entryLe_iff]
  by_cases h : cmpKeyList (pathKey a.path) (pathKey b.path) = .gt
  · right
    rw [cmpKeyList_gt_iff_lt] at h
    simp [h]
  · left; exact h

instance : IsTrans MEntry entryLe := by
  constructor
  intro a b c h1 h2
  rw [entryLe_iff] at h1 h2 ⊢
  exact cmpKeyList_trans_ne_gt h1 h2

/-- A character's code point is below `2 ^ 32`. -/
theorem char_toNat_lt_key_base (c : Char) : c.toNat < 4294967296 := by
  have h := c.val.val.isLt
  simpa [Char.toNat, UInt32.toNat] using h

theorem charKey_injective : Function.Injective charKey := by
  intro c d h
  unfold charKey at h
  have hc := char_toNat_lt_key_base c
  have hd := char_toNat_lt_key_base d
  have : c.toNat = d.toNat := by
    split_ifs at h <;> omega
  exact Char.ext (UInt32.ext this)

theorem pathKey_injective : Function.Injective pathKey := by
  intro s t h
  unfold pathKey at h
  have hdata : s.data = t.data := List.map_injective_iff.mpr charKey_injective h
  exact String.ext hdata

/-- Two sorted permutations of each other agree, provided the relation
is antisymmetric on the elements of the list. -/
theorem eq_of_perm_of_sorted_of_antisymmOn {α : Type} {r : α → α → Prop} :
    ∀ {l₁ l₂ : List α}, l₁.Perm l₂ → l₁.Sorted r → l₂.Sorted r →
      (∀ a ∈ l₁, ∀ b ∈ l₁, r a b → r b a → a = b) → l₁ = l₂ := by
  intro l₁
  induction l₁ with
  | nil =>
    intro l₂ hp _ _ _
    exact hp.nil_eq
  | cons a t₁ ih =>
    intro l₂ hp hs₁ hs₂ hanti
    cases l₂ with
    | nil => exact absurd hp.symm.nil_eq (by simp)
    | cons b t₂ =>
      have hab : a = b := by
        have hbmem : b ∈ a :: t₁ := hp.symm.subset (by simp)
        have hamem : a ∈ b :: t₂ := hp.subset (by simp)
        rcases List.mem_cons.mp hbmem with hb | hb
        · exact hb.symm
        rcases List.mem_cons.mp hamem with ha | ha
        · exact ha
        have hr1 : r a b := (List.sorted_cons.mp hs₁).1 b hb
        have hr2 : r b a := (List.sorted_cons.mp hs₂).1 a ha
        exact hanti a (by simp) b (by simp [hb]) hr1 hr2
      subst hab
      have hp' : t₁.Perm t₂ := hp.cons_inv
      have ht : t₁ = t₂ := by
        refine ih hp' (List.sorted_cons.mp hs₁).2 (List.sorted_cons.mp hs₂).2 ?_
        intro x hx y hy
        exact hanti x (by simp [hx]) y (by simp [hy])
      rw [ht]

/-! ### Claims C3 and C5 -/

/-- C3, counterexample.  `computeManifestHash` does not hash the
`path\tcontent-hash\n` records in bytewise path order: on the entries
`[{B, h1}, {a, h2}]` the code joins `path:hash` records with a `'\n'`
separator (no trailing newline) and sorts `a` before `B` under
`localeCompare`, while the claim's digest keeps `B` before `a`
(bytewise) and frames records with tab and trailing newline; the two
digests differ. -/
theorem computeManifestHash_not_bytewise_tab_cex :
    computeManifestHash [⟨"B", "h1"⟩, ⟨"a", "h2"⟩] ≠
      bytewiseManifestDigest [⟨"B", "h1"⟩, ⟨"a", "h2"⟩] := by
  decide

/-- C3, amended.  The manifest digest equals the SHA-256 hash (64
lowercase hex chars) of the UTF-8 bytes of the records
`path:content-hash` joined by single `'\n'` separators, with entries
stably sorted by `localeCompare` of their paths. -/
theorem computeManifestHash_eq_amended_digest (entries : List MEntry) :
    computeManifestHash entries = amendedManifestDigest entries := rfl

/-- C5, counterexample.  Permutation invariance fails for entry lists
with a repeated path: `[{a, h2}, {a, h1}]` is a permutation of
`[{a, h1}, {a, h2}]`, but the stable sort keeps the tied entries in
input order, so the two digests differ. -/
theorem computeManifestHash_perm_cex :
    ([⟨"a", "h2"⟩, ⟨"a", "h1"⟩] : List MEntry).Perm [⟨"a", "h1"⟩, ⟨"a", "h2"⟩] ∧
      computeManifestHash [⟨"a", "h2"⟩, ⟨"a", "h1"⟩] ≠
        computeManifestHash [⟨"a", "h1"⟩, ⟨"a", "h2"⟩] := by
  constructor
  · decide
  · decide

/-- C5, amended.  For every list of file entries whose paths are
pairwise distinct (as in any manifest, where paths are unique), every
permutation of the list has the same manifest digest. -/
theorem computeManifestHash_perm_of_nodup_paths (E P : List MEntry)
    (hperm : E.Perm P) (hnodup : (E.map MEntry.path).Nodup) :
    computeManifestHash P = computeManifestHash E := by
  have hsort : List.insertionSort entryLe P = List.insertionSort entryLe E := by
    refine eq_of_perm_of_sorted_of_antisymmOn
      (((List.perm_insertionSort entryLe P).trans hperm.symm).trans
        (List.perm_insertionSort entryLe E).symm)
      (List.sorted_insertionSort entryLe P)
      (List.sorted_insertionSort entryLe E) ?_
    intro a ha b hb h1 h2
    have ha' : a ∈ E := hperm.symm.subset ((List.perm_insertionSort entryLe P).subset ha)
    have hb' : b ∈ E := hperm.symm.subset ((List.perm_insertionSort entryLe P).subset hb)
    rw [entryLe_iff] at h1 h2
    have hpathkey : cmpKeyList (pathKey a.path) (pathKey b.path) = .eq := by
      cases h : cmpKeyList (pathKey a.path) (pathKey b.path)
      · rw [← cmpKeyList_gt_iff_lt] at h
        exact absurd h h2
      · rfl
      · exact absurd h h1
    have hpath : a.path = b.path := pathKey_injective (cmpKeyList_eq_iff.mp hpathkey)
    exact List.inj_on_of_nodup_map hnodup ha' hb' hpath
  unfold computeManifestHash
  rw [hsort]

/-- C5, witness for the amended theorem at a concrete permutation. -/
theorem computeManifestHash_perm_of_nodup_paths_witness :
    computeManifestHash [⟨"b", "h2"⟩, ⟨"a", "h1"⟩] =
      computeManifestHash [⟨"a", "h1"⟩, ⟨"b", "h2"⟩] :=
  computeManifestHash_perm_of_nodup_paths
    [⟨"a", "h1"⟩, ⟨"b", "h2"⟩] [⟨"b", "h2"⟩, ⟨"a", "h1"⟩]
    (by decide) (by decide)

/-! ## File entries, JavaScript maps, and the local disk

`pull` and `restoreSnapshot` in `core/src/sync.ts` build
`new Map(entries.map(e => [e.path, e]))` for the local scan result and
the remote manifest, and mutate the local tree by `rename`, by
`storage.retrieveFile(hash, localFilePath)`, and by `unlink`.  We model
a JavaScript `Map` as an insertion-ordered association list with
overwrite-on-insert, and the local tree as such a map from paths to
file entries (a file's content is identified by its hash). -/

/-- A manifest file entry (`FileEntry` of `core/src/types.ts`);
`modifiedAt` is the epoch-millisecond value of `Date.getTime()`. -/
structure FileEntry where
  path : String
  hash : String
  size : Nat
  modifiedAt : Int
  isDirectory : Bool := false
deriving DecidableEq

/-- A detected pull conflict (`Conflict` of `core/src/types.ts`). -/
structure Conflict where
  path : String
  localEntry : FileEntry
  remoteEntry : FileEntry
  localModifiedAt : Int
  remoteModifiedAt : Int
deriving DecidableEq

/-- A conflict resolution choice. -/
inductive Resolution where
  | keep_local
  | keep_remote
  | keep_both
deriving DecidableEq

/-- One entry of the `conflictResolutions` argument. -/
structure ConflictResolution where
  path : String
  resolution : Resolution
deriving DecidableEq

/-- The `PullResult` record of `core/src/sync.ts` (shared by
`restoreSnapshot`). -/
structure PullResult where
  success : Bool
  filesDownloaded : Nat
  filesDeleted : Nat
  bytesTransferred : Nat
  conflicts : List Conflict
  error : Option String := none
deriving DecidableEq

/-- Insert into a JavaScript `Map`: overwrite an existing key in place,
else append. -/
def jsMapInsert {α : Type} : List (String × α) → String → α → List (String × α)
  | [], k, v => [(k, v)]
  | (k', v') :: t, k, v =>
      if k' = k then (k, v) :: t else (k', v') :: jsMapInsert t k v

/-- `Map.get`. -/
def jsMapGet {α : Type} (m : List (String × α)) (k : String) : Option α :=
  (m.find? (fun p => p.1 == k)).map (fun p => p.2)

/-- `Map.has`. -/
def jsMapHas {α : Type} (m : List (String × α)) (k : String) : Bool :=
  (jsMapGet m k).isSome

/-- `Map.keys`. -/
def jsMapKeys {α : Type} (m : List (String × α)) : List String :=
  m.map (fun p => p.1)

/-- `Map.delete` (the key occurs at most once in the maps we build). -/
def jsMapErase {α : Type} (m : List (String × α)) (k : String) : List (String × α) :=
  m.filter (fun p => ¬ p.1 = k)

/-- `new Map(entries.map(e => [e.path, e]))`. -/
def jsMapOfEntries (es : List FileEntry) : List (String × FileEntry) :=
  es.foldl (fun m e => jsMapInsert m e.path e) []

/-- Whether selective sync lets a path through: the loops in `pull` and
`restoreSnapshot` skip a path iff an include matcher is present and
`matcher.ignores(path)` is false.  The matcher built by the external
`ignore` package from the include patterns is modelled as a function
parameter. -/
def selOk (sel : Option (String → Bool)) (p : String) : Bool :=
  match sel with
  | none => true
  | some f => f p

/-! ### The `keep_both` rename target -/

/-- Whether `pat` is a prefix of `s`. -/
def isPrefixList : List Char → List Char → Bool
  | [], _ => true
  | _ :: _, [] => false
  | a :: as, b :: bs => a = b && isPrefixList as bs

/-- `String.prototype.replace` with a plain-string pattern: replace the
first occurrence only (the string is unchanged when the pattern does
not occur; an empty pattern matches at position 0). -/
def replaceFirstList (s pat repl : List Char) : List Char :=
  match s with
  | [] => if pat.isEmpty then repl else []
  | c :: t =>
      if isPrefixList pat (c :: t) then repl ++ (c :: t).drop pat.length
      else c :: replaceFirstList t pat repl

/-- `String.prototype.replace` on strings. -/
def replaceFirst (s pat repl : String) : String :=
  String.mk (replaceFirstList s.data pat.data repl.data)

/-- `path.includes('.')` (kernel-reducible `String.contains`). -/
def containsChar (s : String) (c : Char) : Bool :=
  s.data.contains c

/-- Split a character list at a separator character. -/
def splitOnCharList (sep : Char) : List Char → List (List Char)
  | [] => [[]]
  | c :: t =>
      let r := splitOnCharList sep t
      if c = sep then [] :: r
      else
        match r with
        | h :: t' => (c :: h) :: t'
        | [] => [[c]]

/-- `path.split('.')` for a one-character separator, with JavaScript
semantics (`"a.".split('.')` is `["a", ""]`, `"".split('.')` is
`[""]`). -/
def jsSplitChar (sep : Char) (s : String) : List String :=
  (splitOnCharList sep s.data).map String.mk

example : jsSplitChar '.' "a.txt" = ["a", "txt"] := by decide
example : jsSplitChar '.' "a." = ["a", ""] := by decide
example : jsSplitChar '.' "" = [""] := by decide

/-- The conflict path used by the `keep_both` resolution in `pull`:
`ext` is `'.' + path.split('.').pop()` when the path contains a dot
(else empty), `baseName` is `path.replace(ext, '')` — which removes the
*first* occurrence of `ext` — and the target is
`baseName + '.local' + ext`. -/
def keepBothTarget (path : String) : String :=
  let ext := if containsChar path '.' then "." ++ (jsSplitChar '.' path).getLastD "" else ""
  let baseName := replaceFirst path ext ""
  baseName ++ ".local" ++ ext

/-- The rename target as claim C7 words it: the original path with
`.local` inserted before its final extension (`a.txt` becomes
`a.local.txt`). -/
def claimKeepBothTarget (path : String) : String :=
  if containsChar path '.' then
    let parts := jsSplitChar '.' path
    String.intercalate "." parts.dropLast ++ ".local." ++ parts.getLastD ""
  else path ++ ".local"

example : keepBothTarget "a.txt" = "a.local.txt" := by decide
example : claimKeepBothTarget "a.txt" = "a.local.txt" := by decide

/-! ## The pull and restore operations

The download / conflict / delete phases of `SyncEngine.pull` and
`SyncEngine.restoreSnapshot`, embedded over the map model.  Loops that
push onto arrays are written as structural recursions producing the
same sequences in the same order. -/

/-- The `for (const [path, remoteEntry] of remoteMap)` loop of `pull`:
skip paths filtered out by selective sync; download new files; for
differing files, record a conflict when the local mtime is strictly
greater than the remote mtime, else download.  Returns
`(filesToDownload, conflicts)` in loop order. -/
def pullScanRemote (localMap : List (String × FileEntry)) (sel : Option (String → Bool)) :
    List (String × FileEntry) → List FileEntry × List Conflict
  | [] => ([], [])
  | (path, remoteEntry) :: rest =>
      let acc := pullScanRemote localMap sel rest
      if selOk sel path = false then acc
      else
        match jsMapGet localMap path with
        | none => (remoteEntry :: acc.1, acc.2)
        | some localEntry =>
            if localEntry.hash ≠ remoteEntry.hash then
              if remoteEntry.modifiedAt < localEntry.modifiedAt then
                (acc.1, ⟨path, localEntry, remoteEntry,
                  localEntry.modifiedAt, remoteEntry.modifiedAt⟩ :: acc.2)
              else (remoteEntry :: acc.1, acc.2)
            else acc

/-- The `filesToDelete` loop shared by `pull` and `restoreSnapshot`: a
local path is deleted when it is absent from the remote map *or* does
not pass the selective-sync filter. -/
def filesToDeleteOf (localMap remoteMap : List (String × FileEntry))
    (sel : Option (String → Bool)) : List String :=
  (jsMapKeys localMap).filter (fun p => ¬ (jsMapHas remoteMap p ∧ selOk sel p = true))

/-- `new Map(conflictResolutions.map(r => [r.path, r.resolution])).get(path)`. -/
def resolutionFor (rs : List ConflictResolution) (p : String) : Option Resolution :=
  jsMapGet (rs.foldl (fun m r => jsMapInsert m r.path r.resolution) []) p

/-- The conflict-resolution loop of `pull`: `keep_remote` queues the
remote entry for download; `keep_both` renames the local file to
`keepBothTarget` and then queues the download; `keep_local` (or a
missing entry) does nothing.  Returns the extra downloads and the
renames, each in loop order. -/
def applyResolutionsList (rs : List ConflictResolution) :
    List Conflict → List FileEntry × List (String × String)
  | [] => ([], [])
  | c :: rest =>
      let acc := applyResolutionsList rs rest
      match resolutionFor rs c.path with
      | some .keep_remote => (c.remoteEntry :: acc.1, acc.2)
      | some .keep_both =>
          (c.remoteEntry :: acc.1, (c.path, keepBothTarget c.path) :: acc.2)
      | _ => acc

/-- `fs.rename(src, dst)` on the disk map: fails (throws) when the
source is absent, else moves the value, overwriting any file at the
destination. -/
def diskRename (disk : List (String × FileEntry)) (src dst : String) :
    Option (List (String × FileEntry)) :=
  match jsMapGet disk src with
  | none => none
  | some v => some (jsMapInsert (jsMapErase disk src) dst v)

/-- Apply the renames in order; on the first failure stop with the
partial state and a `false` flag (the engine's `catch` takes over). -/
def applyRenames (disk : List (String × FileEntry)) :
    List (String × String) → List (String × FileEntry) × Bool
  | [] => (disk, true)
  | (src, dst) :: rest =>
      match diskRename disk src dst with
      | some d => applyRenames d rest
      | none => (disk, false)

/-- Apply the downloads in order: `storage.retrieveFile(file.hash,
localFilePath)` writes the remote content at the entry's path (its
boolean result is ignored by the engine). -/
def applyDownloads (disk : List (String × FileEntry)) :
    List FileEntry → List (String × FileEntry)
  | [] => disk
  | e :: rest => applyDownloads (jsMapInsert disk e.path e) rest

/-- Apply the deletions in order (`unlink`, missing files ignored). -/
def applyDeletes (disk : List (String × FileEntry)) :
    List String → List (String × FileEntry)
  | [] => disk
  | p :: rest => applyDeletes (jsMapErase disk p) rest

/-- `SyncEngine.pull`, from the point where the local scan result and
the remote manifest are in hand.  `localEntries` is the scan of the
local tree (which is also the initial disk state); `remote` is the
entry list of the latest snapshot on the branch, or `none` when the
branch has no snapshot.  Returns the `PullResult` and the final local
tree. -/
def pullRun (localEntries : List FileEntry) (remote : Option (List FileEntry))
    (resolutions : Option (List ConflictResolution)) (sel : Option (String → Bool)) :
    PullResult × List (String × FileEntry) :=
  let disk0 := jsMapOfEntries localEntries
  match remote with
  | none =>
      -- `if (!latestSnapshot)`: nothing to pull
      ({ success := true, filesDownloaded := 0, filesDeleted := 0,
         bytesTransferred := 0, conflicts := [] }, disk0)
  | some remoteEntries =>
      let localMap := jsMapOfEntries localEntries
      let remoteMap := jsMapOfEntries remoteEntries
      let scanned := pullScanRemote localMap sel remoteMap
      let dels := filesToDeleteOf localMap remoteMap sel
      if scanned.2.length > 0 ∧ resolutions = none then
        ({ success := false, filesDownloaded := 0, filesDeleted := 0,
           bytesTransferred := 0, conflicts := scanned.2 }, disk0)
      else
        let extra :=
          match resolutions with
          | some rs => applyResolutionsList rs scanned.2
          | none => ([], [])
        let downloads := scanned.1 ++ extra.1
        let renamed := applyRenames disk0 extra.2
        if renamed.2 = false then
          ({ success := false, filesDownloaded := 0, filesDeleted := 0,
             bytesTransferred := 0, conflicts := [],
             error := some "rename failed" }, renamed.1)
        else
          let disk2 := applyDownloads renamed.1 downloads
          let disk3 := applyDeletes disk2 dels
          ({ success := true, filesDownloaded := downloads.length,
             filesDeleted := dels.length,
             bytesTransferred := (downloads.map FileEntry.size).sum,
             conflicts := [] }, disk3)

/-- The download loop of `restoreSnapshot`: download every snapshot
entry that passes the selective filter and is missing locally or has a
different hash (no conflict detection). -/
def restoreScanRemote (localMap : List (String × FileEntry)) (sel : Option (String → Bool)) :
    List (String × FileEntry) → List FileEntry
  | [] => []
  | (path, remoteEntry) :: rest =>
      let acc := restoreScanRemote localMap sel rest
      if selOk sel path = false then acc
      else
        match jsMapGet localMap path with
        | none => remoteEntry :: acc
        | some localEntry =>
            if localEntry.hash ≠ remoteEntry.hash then remoteEntry :: acc else acc

/-- `SyncEngine.restoreSnapshot` from the point where the snapshot
lookup and local scan are in hand; `snapshotEntries = none` models a
missing snapshot id (the code throws `'Snapshot not found'`, caught by
the operation's own handler). -/
def restoreRun (localEntries : List FileEntry) (snapshotEntries : Option (List FileEntry))
    (sel : Option (String → Bool)) : PullResult × List (String × FileEntry) :=
  let disk0 := jsMapOfEntries localEntries
  match snapshotEntries with
  | none =>
      ({ success := false, filesDownloaded := 0, filesDeleted := 0,
         bytesTransferred := 0, conflicts := [],
         error := some "Snapshot not found" }, disk0)
  | some remoteEntries =>
      let localMap := jsMapOfEntries localEntries
      let remoteMap := jsMapOfEntries remoteEntries
      let downloads := restoreScanRemote localMap sel remoteMap
      let dels := filesToDeleteOf localMap remoteMap sel
      let disk2 := applyDownloads disk0 downloads
      let disk3 := applyDeletes disk2 dels
      ({ success := true, filesDownloaded := downloads.length,
         filesDeleted := dels.length,
         bytesTransferred := (downloads.map FileEntry.size).sum,
         conflicts := [] }, disk3)

/-! ### Lemmas about the map model -/

theorem jsMapGet_nil {α : Type} (k : String) : jsMapGet ([] : List (String × α)) k = none := rfl

theorem jsMapGet_cons {α : Type} (p : String × α) (t : List (String × α)) (k : String) :
    jsMapGet (p :: t) k = if p.1 = k then some p.2 else jsMapGet t k := by
  by_cases h : p.1 = k
  · simp [jsMapGet, List.find?, h]
  · have hb : (p.1 == k) = false := beq_eq_false_iff_ne.mpr h
    simp [jsMapGet, List.find?, hb, h]

theorem jsMapGet_insert {α : Type} (m : List (String × α)) (k : String) (v : α)
    (k' : String) :
    jsMapGet (jsMapInsert m k v) k' = if k' = k then some v else jsMapGet m k' := by
  induction m with
  | nil =>
    by_cases h : k' = k
    · subst h; simp [jsMapInsert, jsMapGet_cons]
    · have h2 : ¬ k = k' := fun hh => h hh.symm
      simp [jsMapInsert, jsMapGet_cons, h, h2]
  | cons p t ih =>
    by_cases hpk : p.1 = k
    · subst hpk
      by_cases h : k' = p.1
      · subst h; simp [jsMapInsert, jsMapGet_cons]
      · have h2 : ¬ p.1 = k' := fun hh => h hh.symm
        simp [jsMapInsert, jsMapGet_cons, h, h2]
    · by_cases h : k' = k
      · subst h
        have h2 : ¬ p.1 = k' := hpk
        simp [jsMapInsert, jsMapGet_cons, hpk, h2, ih]
      · by_cases h1 : p.1 = k'
        · simp [jsMapInsert, jsMapGet_cons, hpk, h1, h]
        · simp [jsMapInsert, jsMapGet_cons, hpk, h1, h, ih]

theorem jsMapErase_cons {α : Type} (p : String × α) (t : List (String × α)) (k : String) :
    jsMapErase (p :: t) k =
      if p.1 = k then jsMapErase t k else p :: jsMapErase t k := by
  by_cases h : p.1 = k <;> simp [jsMapErase, List.filter_cons, h]

theorem jsMapGet_erase {α : Type} (m : List (String × α)) (k k' : String) :
    jsMapGet (jsMapErase m k) k' = if k' = k then none else jsMapGet m k' := by
  induction m with
  | nil => by_cases h : k' = k <;> simp [jsMapErase, jsMapGet_nil, h]
  | cons p t ih =>
    by_cases hpk : p.1 = k
    · rw [jsMapErase_cons, if_pos hpk, ih, jsMapGet_cons]
      by_cases h : k' = k
      · simp [h]
      · have h1 : ¬ p.1 = k' := fun hh => h ((hh.symm.trans hpk).symm ▸ rfl)
        rw [if_neg h, if_neg h, if_neg (by rw [hpk]; exact fun hh => h hh.symm)]
    · rw [jsMapErase_cons, if_neg hpk, jsMapGet_cons, ih, jsMapGet_cons]
      by_cases h1 : p.1 = k'
      · have h : ¬ k' = k := fun hh => hpk (h1.trans hh)
        simp [h1, h]
      · by_cases h : k' = k <;> simp [h1, h, hpk]

theorem jsMapGet_applyDeletes_of_none (d : List (String × FileEntry)) (l : List String)
    (p : String) (h : jsMapGet d p = none) :
    jsMapGet (applyDeletes d l) p = none := by
  induction l generalizing d with
  | nil => exact h
  | cons q rest ih =>
    simp only [applyDeletes]
    refine ih _ ?_
    rw [jsMapGet_erase]
    by_cases hq : p = q <;> simp [hq, h]

theorem jsMapGet_applyDeletes_of_mem (d : List (String × FileEntry)) (l : List String)
    (p : String) (h : p ∈ l) :
    jsMapGet (applyDeletes d l) p = none := by
  induction l generalizing d with
  | nil => exact absurd h (by simp)
  | cons q rest ih =>
    simp only [applyDeletes]
    by_cases hq : p = q
    · subst hq
      by_cases hr : p ∈ rest
      · exact ih _ hr
      · refine jsMapGet_applyDeletes_of_none _ _ _ ?_
        rw [jsMapGet_erase, if_pos rfl]
    · exact ih _ (by rcases List.mem_cons.mp h with h1 | h1 <;> [exact absurd h1 hq; exact h1])

theorem jsMapGet_applyDeletes_of_not_mem (d : List (String × FileEntry)) (l : List String)
    (p : String) (h : ¬ p ∈ l) :
    jsMapGet (applyDeletes d l) p = jsMapGet d p := by
  induction l generalizing d with
  | nil => rfl
  | cons q rest ih =>
    simp only [applyDeletes]
    have hq : ¬ p = q := fun hh => h (by simp [hh])
    rw [ih _ (fun hh => h (by simp [hh])), jsMapGet_erase, if_neg hq]

theorem jsMapGet_applyDownloads_of_not_mem (d : List (String × FileEntry))
    (l : List FileEntry) (p : String) (h : ¬ p ∈ l.map FileEntry.path) :
    jsMapGet (applyDownloads d l) p = jsMapGet d p := by
  induction l generalizing d with
  | nil => rfl
  | cons e rest ih =>
    simp only [applyDownloads]
    have he : ¬ p = e.path := fun hh => h (by simp [hh])
    rw [ih _ (fun hh => h (by simp [hh])), jsMapGet_insert, if_neg he]

theorem jsMapGet_applyDownloads_of_unique (d : List (String × FileEntry))
    (l : List FileEntry) (e : FileEntry) (he : e ∈ l)
    (huniq : ∀ e' ∈ l, e'.path = e.path → e' = e) :
    jsMapGet (applyDownloads d l) e.path = some e := by
  induction l generalizing d with
  | nil => exact absurd he (by simp)
  | cons f rest ih =>
    simp only [applyDownloads]
    by_cases hr : e ∈ rest
    · exact ih _ hr (fun e' h' => huniq e' (by simp [h']))
    · have hfe : e = f := by
        rcases List.mem_cons.mp he with h1 | h1
        · exact h1
        · exact absurd h1 hr
      subst hfe
      have hnone : ¬ e.path ∈ rest.map FileEntry.path := by
        intro hmem
        rcases List.mem_map.mp hmem with ⟨e', he', hpath⟩
        exact hr (huniq e' (by simp [he']) hpath ▸ he')
      rw [jsMapGet_applyDownloads_of_not_mem _ _ _ hnone, jsMapGet_insert, if_pos rfl]

theorem mem_keys_insert {α : Type} (m : List (String × α)) (k : String) (v : α)
    (p : String) :
    p ∈ jsMapKeys (jsMapInsert m k v) ↔ p ∈ jsMapKeys m ∨ p = k := by
  induction m with
  | nil => simp [jsMapInsert, jsMapKeys]
  | cons q t ih =>
    by_cases hq : q.1 = k
    · simp [jsMapInsert, jsMapKeys, hq]
      tauto
    · simp only [jsMapKeys] at ih
      simp only [jsMapInsert, if_neg hq, jsMapKeys, List.map_cons, List.mem_cons]
      rw [ih]
      tauto

theorem mem_keys_jsMapOfEntries (es : List FileEntry) (p : String) :
    p ∈ jsMapKeys (jsMapOfEntries es) ↔ p ∈ es.map FileEntry.path := by
  have main : ∀ (es : List FileEntry) (m : List (String × FileEntry)),
      p ∈ jsMapKeys (es.foldl (fun m e => jsMapInsert m e.path e) m) ↔
        p ∈ jsMapKeys m ∨ p ∈ es.map FileEntry.path := by
    intro es
    induction es with
    | nil => simp
    | cons e rest ih =>
      intro m
      simp only [List.foldl_cons, List.map_cons, List.mem_cons]
      rw [ih, mem_keys_insert]
      tauto
  have h := main es []
  simpa [jsMapOfEntries, jsMapKeys] using h

theorem mem_jsMapInsert {α : Type} (m : List (String × α)) (k : String) (v : α)
    (q : String × α) (h : q ∈ jsMapInsert m k v) : q ∈ m ∨ q = (k, v) := by
  induction m with
  | nil => simpa [jsMapInsert] using h
  | cons p t ih =>
    by_cases hp : p.1 = k
    · rw [jsMapInsert, if_pos hp] at h
      rcases List.mem_cons.mp h with h1 | h1
      · exact Or.inr h1
      · exact Or.inl (by simp [h1])
    · rw [jsMapInsert, if_neg hp] at h
      rcases List.mem_cons.mp h with h1 | h1
      · exact Or.inl (by simp [h1])
      · rcases ih h1 with h2 | h2
        · exact Or.inl (by simp [h2])
        · exact Or.inr h2

theorem mem_jsMapOfEntries (es : List FileEntry) (q : String × FileEntry)
    (h : q ∈ jsMapOfEntries es) : ∃ e ∈ es, q = (e.path, e) := by
  have main : ∀ (es0 : List FileEntry) (m : List (String × FileEntry)),
      q ∈ es0.foldl (fun m e => jsMapInsert m e.path e) m →
        q ∈ m ∨ ∃ e ∈ es0, q = (e.path, e) := by
    intro es0
    induction es0 with
    | nil => intro m hm; exact Or.inl hm
    | cons e rest ih =>
      intro m hm
      rcases ih _ hm with h1 | h1
      · rcases mem_jsMapInsert _ _ _ _ h1 with h2 | h2
        · exact Or.inl h2
        · exact Or.inr ⟨e, by simp, h2⟩
      · rcases h1 with ⟨e', he', hq⟩
        exact Or.inr ⟨e', by simp [he'], hq⟩
  rcases main es [] h with h1 | h1
  · exact absurd h1 (by simp)
  · exact h1

theorem jsMapOfEntries_val_path (es : List FileEntry) (k : String) (v : FileEntry)
    (h : (k, v) ∈ jsMapOfEntries es) : v.path = k ∧ v ∈ es := by
  rcases mem_jsMapOfEntries es _ h with ⟨e, he, hq⟩
  have h1 : k = e.path := congrArg Prod.fst hq
  have h2 : v = e := congrArg Prod.snd hq
  subst h2
  exact ⟨h1.symm, he⟩

/-- Every queued download of the pull scan loop passed the selective
filter under its map key, and came from the remote map. -/
theorem pullScanRemote_downloads_spec (lm : List (String × FileEntry))
    (sel : Option (String → Bool)) (L : List (String × FileEntry)) :
    ∀ e ∈ (pullScanRemote lm sel L).1, ∃ p, selOk sel p = true ∧ (p, e) ∈ L := by
  induction L with
  | nil => intro e he; exact absurd he (by simp [pullScanRemote])
  | cons q rest ih =>
    rcases q with ⟨path, remoteEntry⟩
    intro e he
    simp only [pullScanRemote] at he
    by_cases hsel : selOk sel path = false
    · rw [if_pos hsel] at he
      rcases ih e he with ⟨p, h1, h2⟩
      exact ⟨p, h1, by simp [h2]⟩
    · rw [if_neg hsel] at he
      have hsel' : selOk sel path = true := by
        cases h : selOk sel path
        · exact absurd h hsel
        · rfl
      cases hloc : jsMapGet lm path with
      | none =>
        simp only [hloc] at he
        rcases List.mem_cons.mp he with h1 | h1
        · subst h1; exact ⟨path, hsel', by simp⟩
        · rcases ih e h1 with ⟨p, h2, h3⟩
          exact ⟨p, h2, by simp [h3]⟩
      | some localEntry =>
        simp only [hloc] at he
        by_cases hh : localEntry.hash ≠ remoteEntry.hash
        · rw [if_pos hh] at he
          by_cases hm : remoteEntry.modifiedAt < localEntry.modifiedAt
          · rw [if_pos hm] at he
            rcases ih e he with ⟨p, h2, h3⟩
            exact ⟨p, h2, by simp [h3]⟩
          · rw [if_neg hm] at he
            rcases List.mem_cons.mp he with h1 | h1
            · subst h1; exact ⟨path, hsel', by simp⟩
            · rcases ih e h1 with ⟨p, h2, h3⟩
              exact ⟨p, h2, by simp [h3]⟩
        · rw [if_neg hh] at he
          rcases ih e he with ⟨p, h2, h3⟩
          exact ⟨p, h2, by simp [h3]⟩

/-- Every conflict detected by the pull scan loop passed the selective
filter, has its local entry in the local map, its pair in the remote
list, differing hashes, and a strictly newer local mtime. -/
theorem pullScanRemote_conflicts_spec (lm : List (String × FileEntry))
    (sel : Option (String → Bool)) (L : List (String × FileEntry)) :
    ∀ c ∈ (pullScanRemote lm sel L).2, selOk sel c.path = true ∧
      jsMapGet lm c.path = some c.localEntry ∧ (c.path, c.remoteEntry) ∈ L ∧
      c.localEntry.hash ≠ c.remoteEntry.hash ∧
      c.remoteEntry.modifiedAt < c.localEntry.modifiedAt := by
  induction L with
  | nil => intro c hc; exact absurd hc (by simp [pullScanRemote])
  | cons q rest ih =>
    rcases q with ⟨path, remoteEntry⟩
    intro c hc
    simp only [pullScanRemote] at hc
    by_cases hsel : selOk sel path = false
    · rw [if_pos hsel] at hc
      rcases ih c hc with ⟨h1, h2, h3, h4, h5⟩
      exact ⟨h1, h2, by simp [h3], h4, h5⟩
    · rw [if_neg hsel] at hc
      have hsel' : selOk sel path = true := by
        cases h : selOk sel path
        · exact absurd h hsel
        · rfl
      cases hloc : jsMapGet lm path with
      | none =>
        simp only [hloc] at hc
        rcases ih c hc with ⟨h1, h2, h3, h4, h5⟩
        exact ⟨h1, h2, by simp [h3], h4, h5⟩
      | some localEntry =>
        simp only [hloc] at hc
        by_cases hh : localEntry.hash ≠ remoteEntry.hash
        · rw [if_pos hh] at hc
          by_cases hm : remoteEntry.modifiedAt < localEntry.modifiedAt
          · rw [if_pos hm] at hc
            rcases List.mem_cons.mp hc with h1 | h1
            · subst h1
              exact ⟨hsel', hloc, by simp, hh, hm⟩
            · rcases ih c h1 with ⟨h2, h3, h4, h5, h6⟩
              exact ⟨h2, h3, by simp [h4], h5, h6⟩
          · rw [if_neg hm] at hc
            rcases ih c hc with ⟨h2, h3, h4, h5, h6⟩
            exact ⟨h2, h3, by simp [h4], h5, h6⟩
        · rw [if_neg hh] at hc
          rcases ih c hc with ⟨h2, h3, h4, h5, h6⟩
          exact ⟨h2, h3, by simp [h4], h5, h6⟩

/-- Every download queued by the restore scan loop passed the selective
filter under its map key, and came from the remote map. -/
theorem restoreScanRemote_spec (lm : List (String × FileEntry))
    (sel : Option (String → Bool)) (L : List (String × FileEntry)) :
    ∀ e ∈ restoreScanRemote lm sel L, ∃ p, selOk sel p = true ∧ (p, e) ∈ L := by
  induction L with
  | nil => intro e he; exact absurd he (by simp [restoreScanRemote])
  | cons q rest ih =>
    rcases q with ⟨path, remoteEntry⟩
    intro e he
    simp only [restoreScanRemote] at he
    by_cases hsel : selOk sel path = false
    · rw [if_pos hsel] at he
      rcases ih e he with ⟨p, h1, h2⟩
      exact ⟨p, h1, by simp [h2]⟩
    · rw [if_neg hsel] at he
      have hsel' : selOk sel path = true := by
        cases h : selOk sel path
        · exact absurd h hsel
        · rfl
      cases hloc : jsMapGet lm path with
      | none =>
        simp only [hloc] at he
        rcases List.mem_cons.mp he with h1 | h1
        · subst h1; exact ⟨path, hsel', by simp⟩
        · rcases ih e h1 with ⟨p, h2, h3⟩
          exact ⟨p, h2, by simp [h3]⟩
      | some localEntry =>
        simp only [hloc] at he
        by_cases hh : localEntry.hash ≠ remoteEntry.hash
        · rw [if_pos hh] at he
          rcases List.mem_cons.mp he with h1 | h1
          · subst h1; exact ⟨path, hsel', by simp⟩
          · rcases ih e h1 with ⟨p, h2, h3⟩
            exact ⟨p, h2, by simp [h3]⟩
        · rw [if_neg hh] at he
          rcases ih e he with ⟨p, h2, h3⟩
          exact ⟨p, h2, by simp [h3]⟩

/-- Membership in the shared deletion list. -/
theorem mem_filesToDeleteOf (lm rm : List (String × FileEntry))
    (sel : Option (String → Bool)) (p : String) :
    p ∈ filesToDeleteOf lm rm sel ↔
      p ∈ jsMapKeys lm ∧ ¬ (jsMapHas rm p = true ∧ selOk sel p = true) := by
  rw [filesToDeleteOf, List.mem_filter]
  constructor
  · rintro ⟨h1, h2⟩
    refine ⟨h1, ?_⟩
    have h3 := of_decide_eq_true h2
    simpa using h3
  · rintro ⟨h1, h2⟩
    refine ⟨h1, ?_⟩
    apply decide_eq_true
    simpa using h2

/-- Reduction of `pull` when the scan finds no conflicts: the engine
renames nothing, downloads the scan's list, then deletes. -/
theorem pullRun_no_conflicts (localEntries remoteEntries : List FileEntry)
    (rs : Option (List ConflictResolution)) (sel : Option (String → Bool))
    (hc : (pullScanRemote (jsMapOfEntries localEntries) sel
        (jsMapOfEntries remoteEntries)).2 = []) :
    pullRun localEntries (some remoteEntries) rs sel =
      ({ success := true,
         filesDownloaded := (pullScanRemote (jsMapOfEntries localEntries) sel
           (jsMapOfEntries remoteEntries)).1.length,
         filesDeleted := (filesToDeleteOf (jsMapOfEntries localEntries)
           (jsMapOfEntries remoteEntries) sel).length,
         bytesTransferred := ((pullScanRemote (jsMapOfEntries localEntries) sel
           (jsMapOfEntries remoteEntries)).1.map FileEntry.size).sum,
         conflicts := [] },
       applyDeletes
         (applyDownloads (jsMapOfEntries localEntries)
           (pullScanRemote (jsMapOfEntries localEntries) sel
             (jsMapOfEntries remoteEntries)).1)
         (filesToDeleteOf (jsMapOfEntries localEntries)
           (jsMapOfEntries remoteEntries) sel)) := by
  cases rs with
  | none => simp [pullRun, hc, applyResolutionsList, applyRenames]
  | some rs' => simp [pullRun, hc, applyResolutionsList, applyRenames]

/-! ### Claims C10, C6, C1 -/

/-- C10.  A pull on a branch with no snapshot in the catalog returns
`success: true` with zero downloads, zero deletions and an empty
conflict list, and leaves the local tree exactly as scanned — no local
file is created, modified, or deleted. -/
theorem pull_no_snapshot_is_noop (localEntries : List FileEntry)
    (resolutions : Option (List ConflictResolution)) (sel : Option (String → Bool)) :
    pullRun localEntries none resolutions sel =
      ({ success := true, filesDownloaded := 0, filesDeleted := 0,
         bytesTransferred := 0, conflicts := [] }, jsMapOfEntries localEntries) := rfl

/-- C6.  A pull whose diff detects at least one conflict and which is
invoked without resolutions returns `success: false` carrying exactly
the detected conflict list, with zero download and deletion counts, and
leaves the local tree untouched: no download, deletion, or rename is
performed before the early return. -/
theorem pull_conflicts_without_resolutions (localEntries remoteEntries : List FileEntry)
    (sel : Option (String → Bool))
    (hc : (pullScanRemote (jsMapOfEntries localEntries) sel
        (jsMapOfEntries remoteEntries)).2 ≠ []) :
    pullRun localEntries (some remoteEntries) none sel =
      ({ success := false, filesDownloaded := 0, filesDeleted := 0,
         bytesTransferred := 0,
         conflicts := (pullScanRemote (jsMapOfEntries localEntries) sel
           (jsMapOfEntries remoteEntries)).2 },
       jsMapOfEntries localEntries) := by
  have hlen : (pullScanRemote (jsMapOfEntries localEntries) sel
      (jsMapOfEntries remoteEntries)).2.length > 0 :=
    List.length_pos.mpr hc
  simp only [pullRun]
  rw [if_pos ⟨hlen, trivial⟩]

/-- C6, witness: a concrete conflicting pull (differing hashes, local
mtime strictly newer) invoked without resolutions. -/
theorem pull_conflicts_without_resolutions_witness :
    (pullScanRemote (jsMapOfEntries [⟨"a.txt", "hB", 6, 200, false⟩]) none
        (jsMapOfEntries [⟨"a.txt", "hA", 6, 100, false⟩])).2 ≠ [] ∧
      pullRun [⟨"a.txt", "hB", 6, 200, false⟩] (some [⟨"a.txt", "hA", 6, 100, false⟩])
          none none =
        ({ success := false, filesDownloaded := 0, filesDeleted := 0,
           bytesTransferred := 0,
           conflicts := (pullScanRemote (jsMapOfEntries [⟨"a.txt", "hB", 6, 200, false⟩])
             none (jsMapOfEntries [⟨"a.txt", "hA", 6, 100, false⟩])).2 },
         jsMapOfEntries [⟨"a.txt", "hB", 6, 200, false⟩]) :=
  ⟨by decide,
   pull_conflicts_without_resolutions [⟨"a.txt", "hB", 6, 200, false⟩]
     [⟨"a.txt", "hA", 6, 100, false⟩] none (by decide)⟩

/-- Modelled: the include matcher the external `ignore` package builds
from the include patterns `["Content/**"]` of spec scenario 4 — a path
matches iff it lies under `Content/`. -/
def contentOnlyMatcher : String → Bool := fun p =>
  isPrefixList "Content/".data p.data

/-- C1, counterexample.  Spec scenario 4: the remote manifest holds
`Content/x.uasset`, `Source/y.cpp`, `Saved/z.log`; peer B has a local
file `Other/k.txt` and pulls with `includePatterns = ["Content/**"]`.
The claim says `Other/k.txt` is left untouched; the code pushes every
local path that is absent from the remote manifest *or* fails the
include filter onto `filesToDelete` and unlinks it, so after the pull
`Other/k.txt` is gone and the result reports one deletion. -/
theorem selective_pull_deletes_unmatched_local_cex :
    jsMapGet (pullRun [⟨"Other/k.txt", "hK", 3, 50, false⟩]
        (some [⟨"Content/x.uasset", "hX", 10, 40, false⟩,
               ⟨"Source/y.cpp", "hY", 5, 40, false⟩,
               ⟨"Saved/z.log", "hZ", 4, 40, false⟩])
        none (some contentOnlyMatcher)).2 "Other/k.txt" = none ∧
      (pullRun [⟨"Other/k.txt", "hK", 3, 50, false⟩]
        (some [⟨"Content/x.uasset", "hX", 10, 40, false⟩,
               ⟨"Source/y.cpp", "hY", 5, 40, false⟩,
               ⟨"Saved/z.log", "hZ", 4, 40, false⟩])
        none (some contentOnlyMatcher)).1 =
        { success := true, filesDownloaded := 1, filesDeleted := 1,
          bytesTransferred := 10, conflicts := [] } := by
  constructor
  · decide
  · decide

/-- C1, amended.  With a non-empty include-pattern list (matcher `m`),
in any pull that proceeds past the conflict check (no conflict was
detected) and in any restore: every downloaded entry matches the
include patterns — non-matching remote paths are never downloaded —
but every local path that does **not** match the patterns is placed on
`filesToDelete` and is absent from the local tree afterwards, even when
that path is absent from the remote manifest. -/
theorem selective_sync_amended (localEntries remoteEntries : List FileEntry)
    (rs : Option (List ConflictResolution)) (m : String → Bool)
    (hc : (pullScanRemote (jsMapOfEntries localEntries) (some m)
        (jsMapOfEntries remoteEntries)).2 = []) :
    (∀ e ∈ (pullScanRemote (jsMapOfEntries localEntries) (some m)
        (jsMapOfEntries remoteEntries)).1, m e.path = true) ∧
    (∀ p ∈ localEntries.map FileEntry.path, m p = false →
      p ∈ filesToDeleteOf (jsMapOfEntries localEntries)
        (jsMapOfEntries remoteEntries) (some m) ∧
      jsMapGet (pullRun localEntries (some remoteEntries) rs (some m)).2 p = none) ∧
    (∀ e ∈ restoreScanRemote (jsMapOfEntries localEntries) (some m)
        (jsMapOfEntries remoteEntries), m e.path = true) ∧
    (∀ p ∈ localEntries.map FileEntry.path, m p = false →
      jsMapGet (restoreRun localEntries (some remoteEntries) (some m)).2 p = none) := by
  have hdel : ∀ p ∈ localEntries.map FileEntry.path, m p = false →
      p ∈ filesToDeleteOf (jsMapOfEntries localEntries)
        (jsMapOfEntries remoteEntries) (some m) := by
    intro p hp hm
    rw [mem_filesToDeleteOf]
    refine ⟨(mem_keys_jsMapOfEntries _ _).mpr hp, ?_⟩
    rintro ⟨_, hsel⟩
    rw [selOk] at hsel
    rw [hm] at hsel
    exact Bool.false_ne_true hsel
  refine ⟨?_, ?_, ?_, ?_⟩
  · intro e he
    rcases pullScanRemote_downloads_spec _ _ _ e he with ⟨p, hsel, hmem⟩
    rcases jsMapOfEntries_val_path _ _ _ hmem with ⟨hpath, _⟩
    rw [selOk] at hsel
    rw [← hpath] at hsel
    exact hsel
  · intro p hp hm
    refine ⟨hdel p hp hm, ?_⟩
    rw [pullRun_no_conflicts _ _ _ _ hc]
    exact jsMapGet_applyDeletes_of_mem _ _ _ (hdel p hp hm)
  · intro e he
    rcases restoreScanRemote_spec _ _ _ e he with ⟨p, hsel, hmem⟩
    rcases jsMapOfEntries_val_path _ _ _ hmem with ⟨hpath, _⟩
    rw [selOk] at hsel
    rw [← hpath] at hsel
    exact hsel
  · intro p hp hm
    simp only [restoreRun]
    exact jsMapGet_applyDeletes_of_mem _ _ _ (hdel p hp hm)

/-- C1, witness for the amended theorem on spec scenario 4:
`Other/k.txt` fails the filter, is put on `filesToDelete`, and is gone
after both pull and restore. -/
theorem selective_sync_amended_witness :
    "Other/k.txt" ∈ filesToDeleteOf
      (jsMapOfEntries [⟨"Other/k.txt", "hK", 3, 50, false⟩])
      (jsMapOfEntries [⟨"Content/x.uasset", "hX", 10, 40, false⟩,
                       ⟨"Source/y.cpp", "hY", 5, 40, false⟩,
                       ⟨"Saved/z.log", "hZ", 4, 40, false⟩])
      (some contentOnlyMatcher) ∧
    jsMapGet (pullRun [⟨"Other/k.txt", "hK", 3, 50, false⟩]
      (some [⟨"Content/x.uasset", "hX", 10, 40, false⟩,
             ⟨"Source/y.cpp", "hY", 5, 40, false⟩,
             ⟨"Saved/z.log", "hZ", 4, 40, false⟩])
      none (some contentOnlyMatcher)).2 "Other/k.txt" = none ∧
    jsMapGet (restoreRun [⟨"Other/k.txt", "hK", 3, 50, false⟩]
      (some [⟨"Content/x.uasset", "hX", 10, 40, false⟩,
             ⟨"Source/y.cpp", "hY", 5, 40, false⟩,
             ⟨"Saved/z.log", "hZ", 4, 40, false⟩])
      (some contentOnlyMatcher)).2 "Other/k.txt" = none := by
  have h := selective_sync_amended [⟨"Other/k.txt", "hK", 3, 50, false⟩]
    [⟨"Content/x.uasset", "hX", 10, 40, false⟩,
     ⟨"Source/y.cpp", "hY", 5, 40, false⟩,
     ⟨"Saved/z.log", "hZ", 4, 40, false⟩]
    none contentOnlyMatcher (by decide)
  exact ⟨(h.2.1 "Other/k.txt" (by decide) (by decide)).1,
    (h.2.1 "Other/k.txt" (by decide) (by decide)).2,
    h.2.2.2 "Other/k.txt" (by decide) (by decide)⟩

/-! ### Further map and rename lemmas (for claim C7) -/

theorem jsMapGet_none_iff_not_mem_keys {α : Type} (m : List (String × α)) (k : String) :
    jsMapGet m k = none ↔ ¬ k ∈ jsMapKeys m := by
  induction m with
  | nil => simp [jsMapGet_nil, jsMapKeys]
  | cons p t ih =>
    rw [jsMapGet_cons]
    by_cases h : p.1 = k
    · simp [jsMapKeys, h]
    · simp only [if_neg h, jsMapKeys, List.map_cons, List.mem_cons, ih, jsMapKeys]
      constructor
      · rintro hnot (h1 | h1)
        · exact h h1.symm
        · exact hnot h1
      · intro hnot h1
        exact hnot (Or.inr h1)

theorem jsMapGet_of_mem_nodup {α : Type} (m : List (String × α)) (k : String) (v : α)
    (hnd : (jsMapKeys m).Nodup) (h : (k, v) ∈ m) : jsMapGet m k = some v := by
  induction m with
  | nil => exact absurd h (by simp)
  | cons p t ih =>
    rw [jsMapGet_cons]
    rcases List.mem_cons.mp h with h1 | h1
    · rw [← h1]
      simp
    · rw [jsMapKeys, List.map_cons, List.nodup_cons] at hnd
      have hk : k ∈ jsMapKeys t := by
        simp only [jsMapKeys, List.mem_map]
        exact ⟨(k, v), h1, rfl⟩
      have hp : ¬ p.1 = k := fun hh => hnd.1 (hh ▸ hk)
      rw [if_neg hp]
      exact ih hnd.2 h1

theorem nodup_keys_jsMapInsert {α : Type} (m : List (String × α)) (k : String) (v : α)
    (h : (jsMapKeys m).Nodup) : (jsMapKeys (jsMapInsert m k v)).Nodup := by
  induction m with
  | nil => simp [jsMapInsert, jsMapKeys]
  | cons p t ih =>
    rw [jsMapKeys, List.map_cons, List.nodup_cons] at h
    by_cases hp : p.1 = k
    · rw [jsMapInsert, if_pos hp, jsMapKeys, List.map_cons, List.nodup_cons]
      exact ⟨hp ▸ h.1, h.2⟩
    · rw [jsMapInsert, if_neg hp, jsMapKeys, List.map_cons, List.nodup_cons]
      refine ⟨?_, ih h.2⟩
      intro hmem
      rcases (mem_keys_insert t k v p.1).mp hmem with h1 | h1
      · exact h.1 h1
      · exact hp h1

theorem nodup_keys_jsMapOfEntries (es : List FileEntry) :
    (jsMapKeys (jsMapOfEntries es)).Nodup := by
  have main : ∀ (es : List FileEntry) (m : List (String × FileEntry)),
      (jsMapKeys m).Nodup →
      (jsMapKeys (es.foldl (fun m e => jsMapInsert m e.path e) m)).Nodup := by
    intro es
    induction es with
    | nil => intro m hm; exact hm
    | cons e rest ih =>
      intro m hm
      exact ih _ (nodup_keys_jsMapInsert _ _ _ hm)
  exact main es [] (by simp [jsMapKeys])

/-- With nodup keys, a pair's membership pins the value at its key. -/
theorem jsMap_value_unique {α : Type} (m : List (String × α)) (k : String) (v v' : α)
    (hnd : (jsMapKeys m).Nodup) (h : (k, v) ∈ m) (h' : (k, v') ∈ m) : v = v' := by
  have e1 := jsMapGet_of_mem_nodup m k v hnd h
  have e2 := jsMapGet_of_mem_nodup m k v' hnd h'
  exact Option.some.inj (e1.symm.trans e2)

/-- The conflict paths of the pull scan form a sublist of the remote
keys processed (hence inherit their distinctness). -/
theorem pullScanRemote_conflicts_paths_sublist (lm : List (String × FileEntry))
    (sel : Option (String → Bool)) (L : List (String × FileEntry)) :
    ((pullScanRemote lm sel L).2.map Conflict.path).Sublist (L.map Prod.fst) := by
  induction L with
  | nil => simp [pullScanRemote]
  | cons q rest ih =>
    rcases q with ⟨path, remoteEntry⟩
    simp only [pullScanRemote, List.map_cons]
    split
    · exact ih.cons _
    · split
      · exact ih.cons _
      · split
        · split
          · simpa using ih.cons₂ path
          · exact ih.cons _
        · exact ih.cons _

/-- The rename sources of the resolution loop form a sublist of the
conflict paths. -/
theorem applyResolutionsList_renames_sources_sublist (rs : List ConflictResolution)
    (cs : List Conflict) :
    ((applyResolutionsList rs cs).2.map Prod.fst).Sublist (cs.map Conflict.path) := by
  induction cs with
  | nil => simp [applyResolutionsList]
  | cons c rest ih =>
    simp only [applyResolutionsList, List.map_cons]
    cases hres : resolutionFor rs c.path with
    | none => exact ih.cons _
    | some r =>
      cases r with
      | keep_local => exact ih.cons _
      | keep_remote => exact ih.cons _
      | keep_both => simpa using ih.cons₂ c.path

/-- Every rename of the resolution loop comes from a `keep_both`
conflict. -/
theorem applyResolutionsList_renames_spec (rs : List ConflictResolution)
    (cs : List Conflict) :
    ∀ r ∈ (applyResolutionsList rs cs).2, ∃ c ∈ cs,
      r = (c.path, keepBothTarget c.path) ∧
      resolutionFor rs c.path = some .keep_both := by
  induction cs with
  | nil => intro r hr; exact absurd hr (by simp [applyResolutionsList])
  | cons c rest ih =>
    intro r hr
    simp only [applyResolutionsList] at hr
    cases hres : resolutionFor rs c.path with
    | none =>
      rw [hres] at hr
      rcases ih r hr with ⟨c', hc', h1, h2⟩
      exact ⟨c', by simp [hc'], h1, h2⟩
    | some res =>
      cases res with
      | keep_local =>
        rw [hres] at hr
        rcases ih r hr with ⟨c', hc', h1, h2⟩
        exact ⟨c', by simp [hc'], h1, h2⟩
      | keep_remote =>
        rw [hres] at hr
        rcases ih r hr with ⟨c', hc', h1, h2⟩
        exact ⟨c', by simp [hc'], h1, h2⟩
      | keep_both =>
        rw [hres] at hr
        rcases List.mem_cons.mp hr with h1 | h1
        · exact ⟨c, by simp, h1, hres⟩
        · rcases ih r h1 with ⟨c', hc', h2, h3⟩
          exact ⟨c', by simp [hc'], h2, h3⟩

/-- A `keep_both` conflict contributes its rename. -/
theorem applyResolutionsList_renames_mem (rs : List ConflictResolution)
    (cs : List Conflict) (c : Conflict) (hc : c ∈ cs)
    (hres : resolutionFor rs c.path = some .keep_both) :
    (c.path, keepBothTarget c.path) ∈ (applyResolutionsList rs cs).2 := by
  induction cs with
  | nil => exact absurd hc (by simp)
  | cons c0 rest ih =>
    simp only [applyResolutionsList]
    rcases List.mem_cons.mp hc with h1 | h1
    · subst h1
      rw [hres]
      simp
    · cases hres0 : resolutionFor rs c0.path with
      | none => exact ih h1
      | some res =>
        cases res with
        | keep_local => exact ih h1
        | keep_remote => exact ih h1
        | keep_both => exact List.mem_cons_of_mem _ (ih h1)

/-- A `keep_both` (or `keep_remote`) conflict contributes its remote
entry to the extra downloads. -/
theorem applyResolutionsList_downloads_mem (rs : List ConflictResolution)
    (cs : List Conflict) (c : Conflict) (hc : c ∈ cs)
    (hres : resolutionFor rs c.path = some .keep_both) :
    c.remoteEntry ∈ (applyResolutionsList rs cs).1 := by
  induction cs with
  | nil => exact absurd hc (by simp)
  | cons c0 rest ih =>
    simp only [applyResolutionsList]
    rcases List.mem_cons.mp hc with h1 | h1
    · subst h1
      rw [hres]
      simp
    · cases hres0 : resolutionFor rs c0.path with
      | none => exact ih h1
      | some res =>
        cases res with
        | keep_local => exact ih h1
        | keep_remote => exact List.mem_cons_of_mem _ (ih h1)
        | keep_both => exact List.mem_cons_of_mem _ (ih h1)

/-- Every extra download of the resolution loop is the remote entry of
some conflict whose resolution is `keep_remote` or `keep_both`. -/
theorem applyResolutionsList_downloads_spec (rs : List ConflictResolution)
    (cs : List Conflict) :
    ∀ e ∈ (applyResolutionsList rs cs).1, ∃ c ∈ cs, e = c.remoteEntry := by
  induction cs with
  | nil => intro e he; exact absurd he (by simp [applyResolutionsList])
  | cons c0 rest ih =>
    intro e he
    simp only [applyResolutionsList] at he
    cases hres0 : resolutionFor rs c0.path with
    | none =>
      rw [hres0] at he
      rcases ih e he with ⟨c', hc', h1⟩
      exact ⟨c', by simp [hc'], h1⟩
    | some res =>
      cases res with
      | keep_local =>
        rw [hres0] at he
        rcases ih e he with ⟨c', hc', h1⟩
        exact ⟨c', by simp [hc'], h1⟩
      | keep_remote =>
        rw [hres0] at he
        rcases List.mem_cons.mp he with h1 | h1
        · exact ⟨c0, by simp, h1⟩
        · rcases ih e h1 with ⟨c', hc', h2⟩
          exact ⟨c', by simp [hc'], h2⟩
      | keep_both =>
        rw [hres0] at he
        rcases List.mem_cons.mp he with h1 | h1
        · exact ⟨c0, by simp, h1⟩
        · rcases ih e h1 with ⟨c', hc', h2⟩
          exact ⟨c', by simp [hc'], h2⟩

/-- A key touched by no rename (as source or target) is unaffected by
the rename phase, whether or not it fails midway. -/
theorem applyRenames_preserves (disk : List (String × FileEntry))
    (renames : List (String × String)) (p : String)
    (h : ∀ r ∈ renames, r.1 ≠ p ∧ r.2 ≠ p) :
    jsMapGet (applyRenames disk renames).1 p = jsMapGet disk p := by
  induction renames generalizing disk with
  | nil => rfl
  | cons r rest ih =>
    rcases r with ⟨s, t⟩
    simp only [applyRenames]
    cases hren : diskRename disk s t with
    | none => rfl
    | some d =>
      rw [ih d (fun r hr => h r (by simp [hr]))]
      rw [diskRename] at hren
      cases hget : jsMapGet disk s with
      | none => rw [hget] at hren; exact absurd hren (by simp)
      | some v =>
        rw [hget] at hren
        have hd : d = jsMapInsert (jsMapErase disk s) t v := by
          simpa using hren.symm
        subst hd
        rw [jsMapGet_insert, if_neg (fun hh => (h (s, t) (by simp)).2 hh.symm),
          jsMapGet_erase, if_neg (fun hh => (h (s, t) (by simp)).1 hh.symm)]

/-- With pairwise-distinct sources, all sources present, and no target
colliding with any source, every rename succeeds. -/
theorem applyRenames_ok (disk : List (String × FileEntry))
    (renames : List (String × String))
    (hdist : (renames.map Prod.fst).Nodup)
    (hpres : ∀ r ∈ renames, jsMapGet disk r.1 ≠ none)
    (hts : ∀ r ∈ renames, ∀ r' ∈ renames, r.2 ≠ r'.1) :
    (applyRenames disk renames).2 = true := by
  induction renames generalizing disk with
  | nil => rfl
  | cons r rest ih =>
    rcases r with ⟨s, t⟩
    rw [List.map_cons, List.nodup_cons] at hdist
    simp only [applyRenames]
    cases hget : jsMapGet disk s with
    | none => exact absurd hget (hpres (s, t) (by simp))
    | some v =>
      have hren : diskRename disk s t = some (jsMapInsert (jsMapErase disk s) t v) := by
        rw [diskRename, hget]
      rw [hren]
      refine ih _ hdist.2 ?_ ?_
      · intro r hr
        have hs : r.1 ≠ s := by
          intro hh
          exact hdist.1 (hh ▸ (List.mem_map.mpr ⟨r, hr, rfl⟩))
        have ht : r.1 ≠ t := fun hh => hts (s, t) (by simp) r (by simp [hr]) hh.symm
        rw [jsMapGet_insert, if_neg ht, jsMapGet_erase, if_neg hs]
        exact hpres r (by simp [hr])
      · intro r hr r' hr'
        exact hts r (by simp [hr]) r' (by simp [hr'])

/-- The value moved by a rename survives the rest of the rename phase
at its target, under the non-interference hypotheses. -/
theorem applyRenames_target (disk : List (String × FileEntry))
    (renames : List (String × String)) (s0 t0 : String) (v0 : FileEntry)
    (hmem : (s0, t0) ∈ renames)
    (hdist : (renames.map Prod.fst).Nodup)
    (hpres : ∀ r ∈ renames, jsMapGet disk r.1 ≠ none)
    (hts : ∀ r ∈ renames, ∀ r' ∈ renames, r.2 ≠ r'.1)
    (htgt : ∀ r ∈ renames, r ≠ (s0, t0) → r.2 ≠ t0)
    (hv : jsMapGet disk s0 = some v0) :
    jsMapGet (applyRenames disk renames).1 t0 = some v0 := by
  induction renames generalizing disk with
  | nil => exact absurd hmem (by simp)
  | cons r rest ih =>
    rcases r with ⟨s, t⟩
    rw [List.map_cons, List.nodup_cons] at hdist
    simp only [applyRenames]
    cases hget : jsMapGet disk s with
    | none => exact absurd hget (hpres (s, t) (by simp))
    | some v =>
      have hren : diskRename disk s t = some (jsMapInsert (jsMapErase disk s) t v) := by
        rw [diskRename, hget]
      rw [hren]
      by_cases hhead : (s, t) = (s0, t0)
      · have hs : s = s0 := congrArg Prod.fst hhead
        have ht : t = t0 := congrArg Prod.snd hhead
        subst hs; subst ht
        have hvv : v = v0 := Option.some.inj (hget.symm.trans hv)
        subst hvv
        rw [applyRenames_preserves]
        · rw [jsMapGet_insert, if_pos rfl]
        · intro r hr
          constructor
          · exact fun hh => hts (s, t) (by simp) r (by simp [hr]) hh.symm
          · refine htgt r (by simp [hr]) ?_
            intro hh
            have h1 : r.1 = s := congrArg Prod.fst hh
            exact hdist.1 (h1 ▸ (List.mem_map.mpr ⟨r, hr, rfl⟩))
      · have hmem' : (s0, t0) ∈ rest := by
          rcases List.mem_cons.mp hmem with h1 | h1
          · exact absurd h1.symm hhead
          · exact h1
        have hs0 : s0 ≠ s := by
          intro hh
          exact hdist.1 (hh ▸ (List.mem_map.mpr ⟨(s0, t0), hmem', rfl⟩))
        have ht0 : s0 ≠ t :=
          fun hh => hts (s, t) (by simp) (s0, t0) (by simp [hmem']) hh.symm
        refine ih _ hmem' hdist.2 ?_ ?_ ?_ ?_
        · intro r hr
          have hs : r.1 ≠ s := by
            intro hh
            exact hdist.1 (hh ▸ (List.mem_map.mpr ⟨r, hr, rfl⟩))
          have ht : r.1 ≠ t := fun hh => hts (s, t) (by simp) r (by simp [hr]) hh.symm
          rw [jsMapGet_insert, if_neg ht, jsMapGet_erase, if_neg hs]
          exact hpres r (by simp [hr])
        · intro r hr r' hr'
          exact hts r (by simp [hr]) r' (by simp [hr'])
        · intro r hr
          exact htgt r (by simp [hr])
        · rw [jsMapGet_insert, if_neg ht0, jsMapGet_erase, if_neg hs0]
          exact hv

/-- Reduction of `pull` when resolutions are supplied and every rename
succeeds. -/
theorem pullRun_with_resolutions (localEntries remoteEntries : List FileEntry)
    (rs : List ConflictResolution) (sel : Option (String → Bool))
    (hflag : (applyRenames (jsMapOfEntries localEntries)
        (applyResolutionsList rs (pullScanRemote (jsMapOfEntries localEntries) sel
          (jsMapOfEntries remoteEntries)).2).2).2 = true) :
    pullRun localEntries (some remoteEntries) (some rs) sel =
      ({ success := true,
         filesDownloaded := ((pullScanRemote (jsMapOfEntries localEntries) sel
             (jsMapOfEntries remoteEntries)).1 ++
           (applyResolutionsList rs (pullScanRemote (jsMapOfEntries localEntries) sel
             (jsMapOfEntries remoteEntries)).2).1).length,
         filesDeleted := (filesToDeleteOf (jsMapOfEntries localEntries)
           (jsMapOfEntries remoteEntries) sel).length,
         bytesTransferred := (((pullScanRemote (jsMapOfEntries localEntries) sel
             (jsMapOfEntries remoteEntries)).1 ++
           (applyResolutionsList rs (pullScanRemote (jsMapOfEntries localEntries) sel
             (jsMapOfEntries remoteEntries)).2).1).map FileEntry.size).sum,
         conflicts := [] },
       applyDeletes
         (applyDownloads
           (applyRenames (jsMapOfEntries localEntries)
             (applyResolutionsList rs (pullScanRemote (jsMapOfEntries localEntries) sel
               (jsMapOfEntries remoteEntries)).2).2).1
           ((pullScanRemote (jsMapOfEntries localEntries) sel
               (jsMapOfEntries remoteEntries)).1 ++
             (applyResolutionsList rs (pullScanRemote (jsMapOfEntries localEntries) sel
               (jsMapOfEntries remoteEntries)).2).1))
         (filesToDeleteOf (jsMapOfEntries localEntries)
           (jsMapOfEntries remoteEntries) sel)) := by
  simp [pullRun, hflag]

theorem mem_keys_of_mem {α : Type} {m : List (String × α)} {k : String} {v : α}
    (h : (k, v) ∈ m) : k ∈ jsMapKeys m :=
  List.mem_map.mpr ⟨(k, v), h, rfl⟩

theorem jsMapGet_ne_none_of_mem {α : Type} {m : List (String × α)} {k : String} {v : α}
    (h : (k, v) ∈ m) : jsMapGet m k ≠ none :=
  fun hn => ((jsMapGet_none_iff_not_mem_keys m k).mp hn) (mem_keys_of_mem h)

/-! ### Claim C7 -/

/-- C7, counterexample.  On the conflicting path `a.txt.b.txt` resolved
with `keep_both`, the claim predicts a rename to `a.txt.b.local.txt`
(`.local` before the final extension), but the code removes the *first*
occurrence of `.txt` when building the base name, renaming the local
file to `a.b.txt.local.txt`; after the pull the claimed target does not
exist while the code's target holds the old local file. -/
theorem keep_both_rename_cex :
    claimKeepBothTarget "a.txt.b.txt" = "a.txt.b.local.txt" ∧
      jsMapGet (pullRun [⟨"a.txt.b.txt", "hL", 6, 200, false⟩]
          (some [⟨"a.txt.b.txt", "hR", 6, 100, false⟩])
          (some [⟨"a.txt.b.txt", .keep_both⟩]) none).2 "a.txt.b.local.txt" = none ∧
      jsMapGet (pullRun [⟨"a.txt.b.txt", "hL", 6, 200, false⟩]
          (some [⟨"a.txt.b.txt", "hR", 6, 100, false⟩])
          (some [⟨"a.txt.b.txt", .keep_both⟩]) none).2 "a.b.txt.local.txt" =
        some ⟨"a.txt.b.txt", "hL", 6, 200, false⟩ := by
  refine ⟨by decide, by decide, by decide⟩

/-- C7, amended.  For a conflict `c` resolved `keep_both`, the local
file is renamed to `keepBothTarget c.path` — that is,
`baseName + '.local' + ext`, where `ext` is `'.'` plus the substring
after the last dot anywhere in the path (empty if no dot) and
`baseName` is the path with its *first* occurrence of `ext` removed;
for a path whose final extension first occurs at its tail this
coincides with inserting `.local` before the final extension.  The
rename happens before the remote version is fetched: afterwards the
target holds the old local entry and the conflict path holds the remote
entry.  (The freshness hypotheses rule out collisions of the rename
target with local paths, remote paths, or other conflicts'
targets.) -/
theorem keep_both_amended (localEntries remoteEntries : List FileEntry)
    (rs : List ConflictResolution) (sel : Option (String → Bool)) (c : Conflict)
    (hc : c ∈ (pullScanRemote (jsMapOfEntries localEntries) sel
        (jsMapOfEntries remoteEntries)).2)
    (hres : resolutionFor rs c.path = some .keep_both)
    (hloc : jsMapGet (jsMapOfEntries localEntries) (keepBothTarget c.path) = none)
    (hrm : ∀ c' ∈ (pullScanRemote (jsMapOfEntries localEntries) sel
        (jsMapOfEntries remoteEntries)).2,
      jsMapGet (jsMapOfEntries remoteEntries) (keepBothTarget c'.path) = none)
    (hdistinct : ∀ c' ∈ (pullScanRemote (jsMapOfEntries localEntries) sel
        (jsMapOfEntries remoteEntries)).2, c' ≠ c →
      keepBothTarget c'.path ≠ keepBothTarget c.path) :
    (pullRun localEntries (some remoteEntries) (some rs) sel).1.success = true ∧
    jsMapGet (pullRun localEntries (some remoteEntries) (some rs) sel).2
      (keepBothTarget c.path) = some c.localEntry ∧
    jsMapGet (pullRun localEntries (some remoteEntries) (some rs) sel).2
      c.path = some c.remoteEntry := by
  have F_rm_nodup : (jsMapKeys (jsMapOfEntries remoteEntries)).Nodup :=
    nodup_keys_jsMapOfEntries remoteEntries
  have F_conf_spec := pullScanRemote_conflicts_spec (jsMapOfEntries localEntries) sel
    (jsMapOfEntries remoteEntries)
  have F_conf_nodup : (((pullScanRemote (jsMapOfEntries localEntries) sel
      (jsMapOfEntries remoteEntries)).2).map Conflict.path).Nodup :=
    (pullScanRemote_conflicts_paths_sublist _ _ _).nodup F_rm_nodup
  have F_ren_spec := applyResolutionsList_renames_spec rs
    (pullScanRemote (jsMapOfEntries localEntries) sel (jsMapOfEntries remoteEntries)).2
  have F_src_nodup : (((applyResolutionsList rs (pullScanRemote (jsMapOfEntries localEntries)
      sel (jsMapOfEntries remoteEntries)).2).2).map Prod.fst).Nodup :=
    (applyResolutionsList_renames_sources_sublist _ _).nodup F_conf_nodup
  have F_pres : ∀ r ∈ (applyResolutionsList rs (pullScanRemote (jsMapOfEntries localEntries)
      sel (jsMapOfEntries remoteEntries)).2).2,
      jsMapGet (jsMapOfEntries localEntries) r.1 ≠ none := by
    intro r hr
    rcases F_ren_spec r hr with ⟨c', hc', hreq, _⟩
    have h := (F_conf_spec c' hc').2.1
    rw [hreq]
    simp [h]
  have F_ts : ∀ r ∈ (applyResolutionsList rs (pullScanRemote (jsMapOfEntries localEntries)
      sel (jsMapOfEntries remoteEntries)).2).2,
      ∀ r' ∈ (applyResolutionsList rs (pullScanRemote (jsMapOfEntries localEntries)
      sel (jsMapOfEntries remoteEntries)).2).2, r.2 ≠ r'.1 := by
    intro r hr r' hr'
    rcases F_ren_spec r hr with ⟨c1, hc1, he1, _⟩
    rcases F_ren_spec r' hr' with ⟨c2, hc2, he2, _⟩
    subst he1
    subst he2
    intro hh
    have hh' : keepBothTarget c1.path = c2.path := hh
    have hget := hrm c1 hc1
    rw [hh'] at hget
    exact jsMapGet_ne_none_of_mem (F_conf_spec c2 hc2).2.2.1 hget
  have F_htgt : ∀ r ∈ (applyResolutionsList rs (pullScanRemote (jsMapOfEntries localEntries)
      sel (jsMapOfEntries remoteEntries)).2).2,
      r ≠ (c.path, keepBothTarget c.path) → r.2 ≠ keepBothTarget c.path := by
    intro r hr hne
    rcases F_ren_spec r hr with ⟨c', hc', he, _⟩
    by_cases hcc : c' = c
    · subst hcc
      exact absurd he hne
    · subst he
      exact fun hh => hdistinct c' hc' hcc hh
  have F_mem_ren : (c.path, keepBothTarget c.path) ∈
      (applyResolutionsList rs (pullScanRemote (jsMapOfEntries localEntries)
        sel (jsMapOfEntries remoteEntries)).2).2 :=
    applyResolutionsList_renames_mem rs _ c hc hres
  have F_hv : jsMapGet (jsMapOfEntries localEntries) c.path = some c.localEntry :=
    (F_conf_spec c hc).2.1
  have F_flag : (applyRenames (jsMapOfEntries localEntries)
      (applyResolutionsList rs (pullScanRemote (jsMapOfEntries localEntries) sel
        (jsMapOfEntries remoteEntries)).2).2).2 = true :=
    applyRenames_ok _ _ F_src_nodup F_pres F_ts
  have hrun := pullRun_with_resolutions localEntries remoteEntries rs sel F_flag
  have htv : jsMapGet (applyRenames (jsMapOfEntries localEntries)
      (applyResolutionsList rs (pullScanRemote (jsMapOfEntries localEntries) sel
        (jsMapOfEntries remoteEntries)).2).2).1 (keepBothTarget c.path) =
      some c.localEntry :=
    applyRenames_target _ _ c.path (keepBothTarget c.path) c.localEntry
      F_mem_ren F_src_nodup F_pres F_ts F_htgt F_hv
  have hdl : ¬ keepBothTarget c.path ∈
      (((pullScanRemote (jsMapOfEntries localEntries) sel
          (jsMapOfEntries remoteEntries)).1 ++
        (applyResolutionsList rs (pullScanRemote (jsMapOfEntries localEntries) sel
          (jsMapOfEntries remoteEntries)).2).1).map FileEntry.path) := by
    intro hmem
    rcases List.mem_map.mp hmem with ⟨e, he, hpath⟩
    have hin_rm : (keepBothTarget c.path, e) ∈ jsMapOfEntries remoteEntries := by
      rcases List.mem_append.mp he with h1 | h1
      · rcases pullScanRemote_downloads_spec _ _ _ e h1 with ⟨p, _, hmem1⟩
        have hep := (jsMapOfEntries_val_path remoteEntries p e hmem1).1
        rw [← hpath, hep]
        exact hmem1
      · rcases applyResolutionsList_downloads_spec rs _ e h1 with ⟨c'', hc'', he''⟩
        subst he''
        have hmem2 := (F_conf_spec c'' hc'').2.2.1
        have hep := (jsMapOfEntries_val_path remoteEntries c''.path c''.remoteEntry hmem2).1
        rw [← hpath, hep]
        exact hmem2
    exact jsMapGet_ne_none_of_mem hin_rm (hrm c hc)
  have hdel : ¬ keepBothTarget c.path ∈ filesToDeleteOf (jsMapOfEntries localEntries)
      (jsMapOfEntries remoteEntries) sel := by
    intro hmem
    have h1 := ((mem_filesToDeleteOf _ _ _ _).mp hmem).1
    exact ((jsMapGet_none_iff_not_mem_keys _ _).mp hloc) h1
  have hpath_eq : c.remoteEntry.path = c.path :=
    (jsMapOfEntries_val_path remoteEntries c.path c.remoteEntry (F_conf_spec c hc).2.2.1).1
  have hmem_dl : c.remoteEntry ∈
      ((pullScanRemote (jsMapOfEntries localEntries) sel
          (jsMapOfEntries remoteEntries)).1 ++
        (applyResolutionsList rs (pullScanRemote (jsMapOfEntries localEntries) sel
          (jsMapOfEntries remoteEntries)).2).1) :=
    List.mem_append.mpr (Or.inr (applyResolutionsList_downloads_mem rs _ c hc hres))
  have huniq : ∀ e' ∈ ((pullScanRemote (jsMapOfEntries localEntries) sel
      (jsMapOfEntries remoteEntries)).1 ++
        (applyResolutionsList rs (pullScanRemote (jsMapOfEntries localEntries) sel
          (jsMapOfEntries remoteEntries)).2).1),
      e'.path = c.remoteEntry.path → e' = c.remoteEntry := by
    intro e' he' hpe
    rw [hpath_eq] at hpe
    have hin_rm : (c.path, e') ∈ jsMapOfEntries remoteEntries := by
      rcases List.mem_append.mp he' with h1 | h1
      · rcases pullScanRemote_downloads_spec _ _ _ e' h1 with ⟨p, _, hmem1⟩
        have hep := (jsMapOfEntries_val_path remoteEntries p e' hmem1).1
        rw [← hpe, hep]
        exact hmem1
      · rcases applyResolutionsList_downloads_spec rs _ e' h1 with ⟨c'', hc'', he''⟩
        subst he''
        have hmem2 := (F_conf_spec c'' hc'').2.2.1
        have hep := (jsMapOfEntries_val_path remoteEntries c''.path c''.remoteEntry hmem2).1
        rw [← hpe, hep]
        exact hmem2
    exact jsMap_value_unique _ c.path e' c.remoteEntry F_rm_nodup hin_rm
      ((F_conf_spec c hc).2.2.1)
  have hdl2 := jsMapGet_applyDownloads_of_unique
    (applyRenames (jsMapOfEntries localEntries)
      (applyResolutionsList rs (pullScanRemote (jsMapOfEntries localEntries) sel
        (jsMapOfEntries remoteEntries)).2).2).1
    _ c.remoteEntry hmem_dl huniq
  rw [hpath_eq] at hdl2
  have hnotdel : ¬ c.path ∈ filesToDeleteOf (jsMapOfEntries localEntries)
      (jsMapOfEntries remoteEntries) sel := by
    rw [mem_filesToDeleteOf]
    rintro ⟨_, hnot⟩
    apply hnot
    constructor
    · have hg := jsMapGet_of_mem_nodup _ c.path c.remoteEntry F_rm_nodup
        ((F_conf_spec c hc).2.2.1)
      simp [jsMapHas, hg]
    · exact (F_conf_spec c hc).1
  refine ⟨?_, ?_, ?_⟩
  · rw [hrun]
  · rw [hrun]
    rw [jsMapGet_applyDeletes_of_not_mem _ _ _ hdel,
      jsMapGet_applyDownloads_of_not_mem _ _ _ hdl, htv]
  · rw [hrun]
    rw [jsMapGet_applyDeletes_of_not_mem _ _ _ hnotdel, hdl2]

/-- C7, witness for the amended theorem at a concrete `keep_both`
pull. -/
theorem keep_both_amended_witness :
    (pullRun [⟨"a.txt.b.txt", "hL", 6, 200, false⟩]
        (some [⟨"a.txt.b.txt", "hR", 6, 100, false⟩])
        (some [⟨"a.txt.b.txt", .keep_both⟩]) none).1.success = true ∧
    jsMapGet (pullRun [⟨"a.txt.b.txt", "hL", 6, 200, false⟩]
        (some [⟨"a.txt.b.txt", "hR", 6, 100, false⟩])
        (some [⟨"a.txt.b.txt", .keep_both⟩]) none).2
      (keepBothTarget (Conflict.path ⟨"a.txt.b.txt",
        ⟨"a.txt.b.txt", "hL", 6, 200, false⟩,
        ⟨"a.txt.b.txt", "hR", 6, 100, false⟩, 200, 100⟩)) =
      some ⟨"a.txt.b.txt", "hL", 6, 200, false⟩ ∧
    jsMapGet (pullRun [⟨"a.txt.b.txt", "hL", 6, 200, false⟩]
        (some [⟨"a.txt.b.txt", "hR", 6, 100, false⟩])
        (some [⟨"a.txt.b.txt", .keep_both⟩]) none).2 "a.txt.b.txt" =
      some ⟨"a.txt.b.txt", "hR", 6, 100, false⟩ :=
  keep_both_amended [⟨"a.txt.b.txt", "hL", 6, 200, false⟩]
    [⟨"a.txt.b.txt", "hR", 6, 100, false⟩]
    [⟨"a.txt.b.txt", .keep_both⟩] none
    ⟨"a.txt.b.txt", ⟨"a.txt.b.txt", "hL", 6, 200, false⟩,
      ⟨"a.txt.b.txt", "hR", 6, 100, false⟩, 200, 100⟩
    (by decide) (by decide) (by decide) (by decide) (by decide)

/-! ## The operation boundary (claim C2)

`push`, `pull` and `restoreSnapshot` in `core/src/sync.ts` call
`this.lock.acquire(...)` *before* their `try`, then wrap the body in
`try { ... } catch (error) { return { success: false, ..., error } }
finally { await syncLock.release() }`.  `runGarbageCollection` uses
`try { ... } finally { await syncLock.release() }` with no `catch` at
all, and its result type has no `success` or `error` field.
`NasLock.acquire` is documented `@throws Error if lock cannot be
acquired`, and the release handle it returns swallows only the
info-file unlink — the `await release()` of the underlying advisory
lock is not caught and can reject.  By JavaScript semantics an
exception raised in a `finally` block supersedes the `try`'s or
`catch`'s return value (and any in-flight exception).  We model a
phase's outcome as `Except String α` (`.error` = a thrown exception,
carrying the `Error` message), and each operation as a function of its
lock acquisition outcome, its body outcome, and — when the lock was
acquired — its lock-release outcome. -/

/-- The counts a successful push body produces. -/
structure PushStats where
  filesAdded : Nat
  filesModified : Nat
  filesDeleted : Nat
  bytesTransferred : Nat
deriving DecidableEq

/-- The `PushResult` record of `core/src/sync.ts` (the `snapshot` field
is elided). -/
structure PushResult where
  success : Bool
  filesAdded : Nat
  filesModified : Nat
  filesDeleted : Nat
  bytesTransferred : Nat
  error : Option String := none
deriving DecidableEq

/-- The result of `runGarbageCollection`: note there is no `success`
and no `error` field. -/
structure GcResult where
  deletedCount : Nat
  deletedSize : Nat
deriving DecidableEq

/-- The exception/result boundary of `SyncEngine.push`: on a lock
failure nothing else runs; otherwise the `catch` turns a body failure
into a `success: false` result, and then the `finally`'s release runs —
a release rejection supersedes whichever result the `try`/`catch`
produced. -/
def pushBoundary (lockRes : Except String Unit) (body : Except String PushStats)
    (releaseRes : Except String Unit) : Except String PushResult :=
  match lockRes with
  | .error e => .error e
  | .ok _ =>
      let result : PushResult :=
        match body with
        | .ok s =>
            { success := true, filesAdded := s.filesAdded,
              filesModified := s.filesModified, filesDeleted := s.filesDeleted,
              bytesTransferred := s.bytesTransferred }
        | .error m =>
            { success := false, filesAdded := 0, filesModified := 0,
              filesDeleted := 0, bytesTransferred := 0, error := some m }
      match releaseRes with
      | .error e => .error e
      | .ok _ => .ok result

/-- The exception/result boundary of `SyncEngine.pull` (same
`try`/`catch`/`finally` shape as `push`). -/
def pullBoundary (lockRes : Except String Unit) (body : Except String PullResult)
    (releaseRes : Except String Unit) : Except String PullResult :=
  match lockRes with
  | .error e => .error e
  | .ok _ =>
      let result : PullResult :=
        match body with
        | .ok r => r
        | .error m =>
            { success := false, filesDownloaded := 0, filesDeleted := 0,
              bytesTransferred := 0, conflicts := [], error := some m }
      match releaseRes with
      | .error e => .error e
      | .ok _ => .ok result

/-- The exception/result boundary of `SyncEngine.restoreSnapshot` (same
`try`/`catch`/`finally` shape as `push`). -/
def restoreBoundary (lockRes : Except String Unit) (body : Except String PullResult)
    (releaseRes : Except String Unit) : Except String PullResult :=
  match lockRes with
  | .error e => .error e
  | .ok _ =>
      let result : PullResult :=
        match body with
        | .ok r => r
        | .error m =>
            { success := false, filesDownloaded := 0, filesDeleted := 0,
              bytesTransferred := 0, conflicts := [], error := some m }
      match releaseRes with
      | .error e => .error e
      | .ok _ => .ok result

/-- The exception/result boundary of `SyncEngine.runGarbageCollection`:
`try`/`finally` without `catch` — a release rejection supersedes the
body's outcome (result or exception); with a successful release, body
exceptions propagate. -/
def gcBoundary (lockRes : Except String Unit) (body : Except String GcResult)
    (releaseRes : Except String Unit) : Except String GcResult :=
  match lockRes with
  | .error e => .error e
  | .ok _ =>
      match releaseRes with
      | .error e => .error e
      | .ok _ => body

/-! ### Claim C2 -/

/-- C2, counterexample.  Three exceptions escape the operations
instead of becoming `success: false` results: a failed lock
acquisition escapes `push` (acquire is called before the `try`); a
rejection of the lock release in the `finally` escapes `push` even
though the lock was acquired and the body succeeded; and any failure
inside gc's body escapes (gc has no `catch`). -/
theorem boundary_exception_escapes_cex :
    pushBoundary (.error "Sync in progress by desktop (push started at 12:00:00)")
        (.ok ⟨0, 0, 0, 0⟩) (.ok ()) =
      .error "Sync in progress by desktop (push started at 12:00:00)" ∧
    pushBoundary (.ok ()) (.ok ⟨1, 0, 0, 42⟩) (.error "Lock is already released") =
      .error "Lock is already released" ∧
    gcBoundary (.ok ()) (.error "EIO: i/o error") (.ok ()) = .error "EIO: i/o error" :=
  ⟨rfl, rfl, rfl⟩

/-- C2, amended.  For `push`, `pull` and `restore`, a failure of the
`try` body after the exclusion lock is acquired is caught and returned
as `{success: false, error: message}` — and a successful body yields a
`success: true` result — provided the `finally`'s lock release
succeeds.  But a failure to acquire the exclusion lock escapes all four
operations as an exception; a rejection of the lock release in the
`finally` escapes `push`, `pull`, `restore` and gc, superseding
whatever result the body or `catch` produced; and gc has no `catch` at
all, so with a successful release any failure of its body also escapes
(and even its success result carries no `success` flag). -/
theorem boundary_amended (lockErr relErr msg : String) (s : PushStats) (r : PullResult)
    (bp : Except String PushStats) (bl br : Except String PullResult)
    (bg : Except String GcResult) (rel : Except String Unit) :
    pushBoundary (.ok ()) (.error msg) (.ok ()) =
      .ok { success := false, filesAdded := 0, filesModified := 0,
            filesDeleted := 0, bytesTransferred := 0, error := some msg } ∧
    pushBoundary (.ok ()) (.ok s) (.ok ()) =
      .ok { success := true, filesAdded := s.filesAdded,
            filesModified := s.filesModified, filesDeleted := s.filesDeleted,
            bytesTransferred := s.bytesTransferred } ∧
    pullBoundary (.ok ()) (.error msg) (.ok ()) =
      .ok { success := false, filesDownloaded := 0, filesDeleted := 0,
            bytesTransferred := 0, conflicts := [], error := some msg } ∧
    pullBoundary (.ok ()) (.ok r) (.ok ()) = .ok r ∧
    restoreBoundary (.ok ()) (.error msg) (.ok ()) =
      .ok { success := false, filesDownloaded := 0, filesDeleted := 0,
            bytesTransferred := 0, conflicts := [], error := some msg } ∧
    restoreBoundary (.ok ()) (.ok r) (.ok ()) = .ok r ∧
    pushBoundary (.error lockErr) bp rel = .error lockErr ∧
    pullBoundary (.error lockErr) bl rel = .error lockErr ∧
    restoreBoundary (.error lockErr) br rel = .error lockErr ∧
    gcBoundary (.error lockErr) bg rel = .error lockErr ∧
    pushBoundary (.ok ()) bp (.error relErr) = .error relErr ∧
    pullBoundary (.ok ()) bl (.error relErr) = .error relErr ∧
    restoreBoundary (.ok ()) br (.error relErr) = .error relErr ∧
    gcBoundary (.ok ()) bg (.error relErr) = .error relErr ∧
    gcBoundary (.ok ()) bg (.ok ()) = bg :=
  ⟨rfl, rfl, rfl, rfl, rfl, rfl, rfl, rfl, rfl, rfl, rfl, rfl, rfl, rfl, rfl⟩

/-! ## Catalog persistence (claim C4)

`NetworkSyncDb.save` in `core/src/db.ts` is
`if (!this.db || !this.dirty) return; await writeFile(this.dbPath,
Buffer.from(this.db.export()))`.  We model it as the list of filesystem
operations it issues against the shared mount. -/

/-- A durable filesystem operation on the shared mount. -/
inductive FsOp where
  | write (path : String) (data : List Nat)
  | fsync (path : String)
  | renameFile (src dst : String)
deriving DecidableEq

/-- The in-memory catalog state relevant to `save`. -/
structure DbState where
  dbLoaded : Bool
  dirty : Bool
  dataBytes : List Nat
deriving DecidableEq

/-- The operations `NetworkSyncDb.save` issues: nothing when the
database is unloaded or clean, else a single direct `writeFile` to
`sync.db`. -/
def dbSaveOps (s : DbState) : List FsOp :=
  if s.dbLoaded = false ∨ s.dirty = false then []
  else [FsOp.write "sync.db" s.dataBytes]

/-- The write-to-temp + fsync + atomic-rename discipline that claim C4
asserts for every catalog write. -/
def atomicReplaceTrace (target : String) (ops : List FsOp) : Prop :=
  ∃ tmp data, tmp ≠ target ∧
    ops = [FsOp.write tmp data, FsOp.fsync tmp, FsOp.renameFile tmp target]

/-! ### Claim C4 -/

/-- C4, counterexample.  A dirty catalog save issues exactly one direct
write to `sync.db` — no temp file, no fsync, no rename — so the trace
is not an atomic-replace trace and the catalog file *is* overwritten in
place. -/
theorem db_save_not_atomic_cex :
    dbSaveOps ⟨true, true, [1, 2, 3]⟩ = [FsOp.write "sync.db" [1, 2, 3]] ∧
      ¬ atomicReplaceTrace "sync.db" (dbSaveOps ⟨true, true, [1, 2, 3]⟩) := by
  refine ⟨rfl, ?_⟩
  rintro ⟨tmp, data, hne, heq⟩
  have h : ([FsOp.write "sync.db" [1, 2, 3]] : List FsOp) =
      [FsOp.write tmp data, FsOp.fsync tmp, FsOp.renameFile tmp "sync.db"] := heq
  simp at h

/-- C4, amended.  Every dirty catalog save persists the database with a
single direct `writeFile` of the serialized image onto `sync.db`,
overwriting it in place; no rename (and no temp file or fsync) is ever
issued. -/
theorem db_save_amended (s : DbState) (h1 : s.dbLoaded = true) (h2 : s.dirty = true) :
    dbSaveOps s = [FsOp.write "sync.db" s.dataBytes] ∧
    ¬ atomicReplaceTrace "sync.db" (dbSaveOps s) ∧
    (∀ op ∈ dbSaveOps s, ∀ a b, op ≠ FsOp.renameFile a b) := by
  have he : dbSaveOps s = [FsOp.write "sync.db" s.dataBytes] := by
    rw [dbSaveOps, if_neg]
    rintro (h | h)
    · rw [h1] at h; exact absurd h (by simp)
    · rw [h2] at h; exact absurd h (by simp)
  refine ⟨he, ?_, ?_⟩
  · rintro ⟨tmp, data, hne, heq⟩
    rw [he] at heq
    simp at heq
  · intro op hop a b
    rw [he] at hop
    rcases List.mem_singleton.mp hop with h
    rw [h]
    simp

/-- C4, witness at a concrete dirty state. -/
theorem db_save_amended_witness :
    dbSaveOps ⟨true, true, [7, 8]⟩ = [FsOp.write "sync.db" [7, 8]] ∧
    ¬ atomicReplaceTrace "sync.db" (dbSaveOps ⟨true, true, [7, 8]⟩) ∧
    (∀ op ∈ dbSaveOps ⟨true, true, [7, 8]⟩, ∀ a b, op ≠ FsOp.renameFile a b) :=
  db_save_amended ⟨true, true, [7, 8]⟩ rfl rfl

/-! ## The content-addressable store (claim C8)

`ContentStorage.storeFile` in `core/src/storage.ts` hashes the source,
returns the hash unchanged if the blob exists (deduplication), else
streams the source through gzip into a temp file and renames it into
`objects/<aa>/<hash>`.  `retrieveFile` peeks two bytes: on the gzip
magic `0x1f 0x8b` it gunzips to the destination, else copies verbatim;
it then re-hashes the destination and deletes it on mismatch.  The
store is modelled as a map from hash to on-disk blob bytes; the
external primitives (the content hash, zlib's gzip/gunzip) are a
`Codec` parameter. -/

/-- The external primitives `storeFile`/`retrieveFile` use. -/
structure Codec where
  contentHash : List Nat → String
  gzip : List Nat → List Nat
  gunzip : List Nat → List Nat

/-- The two-byte gzip magic check of `retrieveFile`. -/
def hasGzipMagic : List Nat → Bool
  | b0 :: b1 :: _ => b0 == 31 && b1 == 139
  | _ => false

/-- `ContentStorage.storeFile`: returns the content hash as the key;
when the blob is absent it stores the gzip framing of the source. -/
def storeFile (c : Codec) (store : List (String × List Nat)) (src : List Nat) :
    String × List (String × List Nat) :=
  (c.contentHash src,
   if (jsMapGet store (c.contentHash src)).isSome then store
   else jsMapInsert store (c.contentHash src) (c.gzip src))

/-- `ContentStorage.retrieveFile`: `none` models the `false` outcomes
(missing blob, or integrity mismatch after which the destination is
deleted); `some bytes` models success with `bytes` written at the
destination. -/
def retrieveFile (c : Codec) (store : List (String × List Nat)) (h : String) :
    Option (List Nat) :=
  match jsMapGet store h with
  | none => none
  | some blob =>
      let bytes := if hasGzipMagic blob then c.gunzip blob else blob
      if c.contentHash bytes = h then some bytes else none

/-! ### Claim C8 -/

/-- C8.  Provided gunzip inverts gzip and gzip output carries the
two-byte magic, storing any byte sequence (into a store whose slot for
that key is free or holds the same blob) and retrieving the returned
key yields exactly the original bytes, and the hash recomputed over the
result equals the key. -/
theorem store_retrieve_roundtrip (c : Codec) (store : List (String × List Nat))
    (src : List Nat)
    (hinv : ∀ b, c.gunzip (c.gzip b) = b)
    (hmagic : ∀ b, hasGzipMagic (c.gzip b) = true)
    (hfresh : jsMapGet store (c.contentHash src) = none ∨
      jsMapGet store (c.contentHash src) = some (c.gzip src)) :
    (storeFile c store src).1 = c.contentHash src ∧
    retrieveFile c (storeFile c store src).2 (storeFile c store src).1 = some src ∧
    (retrieveFile c (storeFile c store src).2 (storeFile c store src).1).map
      c.contentHash = some (storeFile c store src).1 := by
  have hget : jsMapGet (storeFile c store src).2 (c.contentHash src) =
      some (c.gzip src) := by
    rcases hfresh with h | h
    · rw [storeFile]
      simp only [h, Option.isSome_none, Bool.false_eq_true, if_false]
      rw [jsMapGet_insert, if_pos rfl]
    · simp [storeFile, h]
  have hret : retrieveFile c (storeFile c store src).2 (storeFile c store src).1 =
      some src := by
    show retrieveFile c (storeFile c store src).2 (c.contentHash src) = some src
    rw [retrieveFile]
    simp only [hget, hmagic (src), if_true, hinv src]
  refine ⟨rfl, hret, ?_⟩
  rw [hret]
  rfl

/-- C8, witness with a concrete toy codec (`gzip` = prepend the magic,
`gunzip` = drop it, hash = hex of the bytes) on the empty store. -/
theorem store_retrieve_roundtrip_witness :
    (storeFile ⟨fun b => bytesToHex b, fun b => 31 :: 139 :: b, fun b => b.drop 2⟩
        [] [5, 6]).1 = bytesToHex [5, 6] ∧
    retrieveFile ⟨fun b => bytesToHex b, fun b => 31 :: 139 :: b, fun b => b.drop 2⟩
        (storeFile ⟨fun b => bytesToHex b, fun b => 31 :: 139 :: b, fun b => b.drop 2⟩
          [] [5, 6]).2
        (storeFile ⟨fun b => bytesToHex b, fun b => 31 :: 139 :: b, fun b => b.drop 2⟩
          [] [5, 6]).1 = some [5, 6] ∧
    (retrieveFile ⟨fun b => bytesToHex b, fun b => 31 :: 139 :: b, fun b => b.drop 2⟩
        (storeFile ⟨fun b => bytesToHex b, fun b => 31 :: 139 :: b, fun b => b.drop 2⟩
          [] [5, 6]).2
        (storeFile ⟨fun b => bytesToHex b, fun b => 31 :: 139 :: b, fun b => b.drop 2⟩
          [] [5, 6]).1).map
      (fun b => bytesToHex b) =
      some (storeFile ⟨fun b => bytesToHex b, fun b => 31 :: 139 :: b, fun b => b.drop 2⟩
        [] [5, 6]).1 :=
  store_retrieve_roundtrip
    ⟨fun b => bytesToHex b, fun b => 31 :: 139 :: b, fun b => b.drop 2⟩
    [] [5, 6] (fun _ => rfl) (fun _ => rfl) (Or.inl rfl)

/-! ## Garbage collection (claim C9)

`runGarbageCollection` computes the set of hashes referenced by any
`file_entries` row (`getAllReferencedHashes` in `core/src/db.ts`) and
calls `ContentStorage.prune`, which walks the `objects/<prefix>/`
directories and unlinks every file whose name is not in the live set,
then removes emptied prefix directories.  (`cleanupTemp`, which empties
the staging directory, touches no blob.)  The object store is modelled
as a list of prefix directories, each a list of `(blob name, size)`
pairs. -/

/-- A `file_entries` row of the catalog. -/
structure FileEntryRow where
  snapshotId : String
  path : String
  hash : String
  size : Nat
  modifiedAt : String
deriving DecidableEq

/-- `SELECT DISTINCT hash FROM file_entries`, collected into a
JavaScript `Set` (first occurrence kept). -/
def getAllReferencedHashes (rows : List FileEntryRow) : List String :=
  rows.foldl (fun acc r => if r.hash ∈ acc then acc else acc ++ [r.hash]) []

/-- One prefix directory of the prune walk: keep the live files, count
and size the unlinked ones. -/
def pruneFiles (live : List String) : List (String × Nat) →
    List (String × Nat) × Nat × Nat
  | [] => ([], 0, 0)
  | f :: rest =>
      let r := pruneFiles live rest
      if f.1 ∈ live then (f :: r.1, r.2.1, r.2.2)
      else (r.1, r.2.1 + 1, r.2.2 + f.2)

/-- `ContentStorage.prune`: walk the prefix directories, unlink every
blob not in the live set, and remove emptied prefix directories. -/
def prune (store : List (String × List (String × Nat))) (live : List String) :
    List (String × List (String × Nat)) × Nat × Nat :=
  match store with
  | [] => ([], 0, 0)
  | d :: rest =>
      let pf := pruneFiles live d.2
      let pr := prune rest live
      ((if pf.1.isEmpty then pr.1 else (d.1, pf.1) :: pr.1),
       pf.2.1 + pr.2.1, pf.2.2 + pr.2.2)

/-- Whether a blob with the given hash is present in the object store. -/
def blobPresent (store : List (String × List (String × Nat))) (h : String) : Prop :=
  ∃ d ∈ store, ∃ f ∈ d.2, f.1 = h

instance (store : List (String × List (String × Nat))) (h : String) :
    Decidable (blobPresent store h) :=
  inferInstanceAs (Decidable (∃ d ∈ store, ∃ f ∈ d.2, f.1 = h))

/-- `SyncEngine.runGarbageCollection`, from the point where the lock is
held: prune against the referenced-hash set and report the counts. -/
def runGarbageCollection (rows : List FileEntryRow)
    (store : List (String × List (String × Nat))) :
    GcResult × List (String × List (String × Nat)) :=
  let activeHashes := getAllReferencedHashes rows
  let result := prune store activeHashes
  ({ deletedCount := result.2.1, deletedSize := result.2.2 }, result.1)

theorem mem_getAllReferencedHashes (rows : List FileEntryRow) (h : String) :
    h ∈ getAllReferencedHashes rows ↔ h ∈ rows.map FileEntryRow.hash := by
  have main : ∀ (rows : List FileEntryRow) (acc : List String),
      h ∈ rows.foldl (fun acc r => if r.hash ∈ acc then acc else acc ++ [r.hash]) acc ↔
        h ∈ acc ∨ h ∈ rows.map FileEntryRow.hash := by
    intro rows
    induction rows with
    | nil => simp
    | cons r rest ih =>
      intro acc
      simp only [List.foldl_cons, List.map_cons, List.mem_cons]
      rw [ih]
      by_cases hmem : r.hash ∈ acc
      · rw [if_pos hmem]
        constructor
        · rintro (h1 | h1)
          · exact Or.inl h1
          · exact Or.inr (Or.inr h1)
        · rintro (h1 | h1 | h1)
          · exact Or.inl h1
          · exact Or.inl (h1 ▸ hmem)
          · exact Or.inr h1
      · rw [if_neg hmem]
        simp only [List.mem_append, List.mem_singleton]
        tauto
  rw [getAllReferencedHashes, main rows []]
  simp

theorem blobPresent_pruneFiles (live : List String) (files : List (String × Nat))
    (h : String) :
    (∃ f ∈ (pruneFiles live files).1, f.1 = h) ↔
      (∃ f ∈ files, f.1 = h) ∧ h ∈ live := by
  induction files with
  | nil => simp [pruneFiles]
  | cons f rest ih =>
    simp only [pruneFiles]
    by_cases hf : f.1 ∈ live
    · rw [if_pos hf]
      simp only [List.mem_cons]
      constructor
      · rintro ⟨g, (hg | hg), hgh⟩
        · refine ⟨⟨g, Or.inl hg, hgh⟩, ?_⟩
          rw [← hgh, hg]
          exact hf
        · rcases ih.mp ⟨g, hg, hgh⟩ with ⟨⟨g', hg', hg'h⟩, hl⟩
          exact ⟨⟨g', Or.inr hg', hg'h⟩, hl⟩
      · rintro ⟨⟨g, (hg | hg), hgh⟩, hl⟩
        · exact ⟨g, Or.inl hg, hgh⟩
        · rcases ih.mpr ⟨⟨g, hg, hgh⟩, hl⟩ with ⟨g', hg', hg'h⟩
          exact ⟨g', Or.inr hg', hg'h⟩
    · rw [if_neg hf]
      rw [ih]
      simp only [List.mem_cons]
      constructor
      · rintro ⟨⟨g, hg, hgh⟩, hl⟩
        exact ⟨⟨g, Or.inr hg, hgh⟩, hl⟩
      · rintro ⟨⟨g, (hg | hg), hgh⟩, hl⟩
        · subst hg
          exact absurd (hgh ▸ hl) hf
        · exact ⟨⟨g, hg, hgh⟩, hl⟩

theorem blobPresent_prune (store : List (String × List (String × Nat)))
    (live : List String) (h : String) :
    blobPresent (prune store live).1 h ↔ blobPresent store h ∧ h ∈ live := by
  induction store with
  | nil => simp [prune, blobPresent]
  | cons d rest ih =>
    simp only [prune, blobPresent]
    by_cases hemp : (pruneFiles live d.2).1.isEmpty
    · rw [if_pos hemp]
      have hnone : ¬ ∃ f ∈ (pruneFiles live d.2).1, f.1 = h := by
        rintro ⟨f, hf, _⟩
        rw [List.isEmpty_iff] at hemp
        rw [hemp] at hf
        exact absurd hf (by simp)
      constructor
      · intro hp
        rcases (ih.mp hp) with ⟨⟨d', hd', hfd⟩, hl⟩
        exact ⟨⟨d', List.mem_cons_of_mem _ hd', hfd⟩, hl⟩
      · rintro ⟨⟨d', hd', hfd⟩, hl⟩
        rcases List.mem_cons.mp hd' with h1 | h1
        · subst h1
          exact absurd ((blobPresent_pruneFiles live d'.2 h).mpr ⟨hfd, hl⟩) hnone
        · exact ih.mpr ⟨⟨d', h1, hfd⟩, hl⟩
    · rw [if_neg hemp]
      constructor
      · rintro ⟨d', hd', hfd⟩
        rcases List.mem_cons.mp hd' with h1 | h1
        · subst h1
          rcases (blobPresent_pruneFiles live d.2 h).mp hfd with ⟨hex, hl⟩
          exact ⟨⟨d, by simp, hex⟩, hl⟩
        · rcases ih.mp ⟨d', h1, hfd⟩ with ⟨⟨d'', hd'', hfd''⟩, hl⟩
          exact ⟨⟨d'', List.mem_cons_of_mem _ hd'', hfd''⟩, hl⟩
      · rintro ⟨⟨d', hd', hfd⟩, hl⟩
        rcases List.mem_cons.mp hd' with h1 | h1
        · subst h1
          exact ⟨(d'.1, (pruneFiles live d'.2).1), by simp,
            (blobPresent_pruneFiles live d'.2 h).mpr ⟨hfd, hl⟩⟩
        · rcases ih.mpr ⟨⟨d', h1, hfd⟩, hl⟩ with ⟨d'', hd'', hfd''⟩
          exact ⟨d'', List.mem_cons_of_mem _ hd'', hfd''⟩

/-! ### Claim C9 -/

/-- C9.  Provided every referenced blob is present before gc, a blob is
present in the object store after a completed gc iff its hash is
referenced by at least one `file_entries` row: unreferenced blobs are
unlinked, referenced blobs are kept. -/
theorem gc_blob_present_iff_referenced (rows : List FileEntryRow)
    (store : List (String × List (String × Nat)))
    (hpre : ∀ h ∈ rows.map FileEntryRow.hash, blobPresent store h) :
    ∀ h, blobPresent (runGarbageCollection rows store).2 h ↔
      h ∈ rows.map FileEntryRow.hash := by
  intro h
  show blobPresent (prune store (getAllReferencedHashes rows)).1 h ↔ _
  rw [blobPresent_prune, mem_getAllReferencedHashes]
  constructor
  · rintro ⟨_, hl⟩
    exact hl
  · intro href
    exact ⟨hpre h href, href⟩

/-- C9, witness: one referenced and one unreferenced blob; after gc the
referenced blob is present and the unreferenced one is gone. -/
theorem gc_blob_present_iff_referenced_witness :
    (blobPresent (runGarbageCollection [⟨"s1", "a.txt", "hash1", 10, "t1"⟩]
        [("ha", [("hash1", 10), ("hash2", 20)])]).2 "hash1" ↔
      "hash1" ∈ ([⟨"s1", "a.txt", "hash1", 10, "t1"⟩] : List FileEntryRow).map
        FileEntryRow.hash) ∧
    (blobPresent (runGarbageCollection [⟨"s1", "a.txt", "hash1", 10, "t1"⟩]
        [("ha", [("hash1", 10), ("hash2", 20)])]).2 "hash2" ↔
      "hash2" ∈ ([⟨"s1", "a.txt", "hash1", 10, "t1"⟩] : List FileEntryRow).map
        FileEntryRow.hash) :=
  ⟨gc_blob_present_iff_referenced [⟨"s1", "a.txt", "hash1", 10, "t1"⟩]
      [("ha", [("hash1", 10), ("hash2", 20)])] (by decide) "hash1",
   gc_blob_present_iff_referenced [⟨"s1", "a.txt", "hash1", 10, "t1"⟩]
      [("ha", [("hash1", 10), ("hash2", 20)])] (by decide) "hash2"⟩

end NetworkSync
